import Mathlib

/-!
Verification of requesto, a fluent HTTP client.

A shallow embedding of the request builder, the middleware chain, the retry
middleware, the concurrency manager, the response accessors and the top-level
`Get` of `requesto` (Go), followed by the theorems about them.

Conventions of the embedding.
* A Go function with side effects is a state transformer: it takes the state it
  may touch and returns its results together with the new state.
* A Go `map[K]V` is an association list with pairwise distinct keys; the order of
  the list is the order in which `range` visits the entries, which Go leaves
  unspecified, so a statement quantified over all lists covers every order.
  A nil map reads as the empty map.
* A Go `error` is identified with its message; `none` is the nil error.
* Functions of the Go standard library the code calls (URL parsing, path joining,
  header-key canonicalisation, JSON and form encoding, the HTTP transport) are
  fields of a `Lib` record the definitions take as their first argument.
-/

namespace Requesto

/-- A Go `error` value; `Option GoError` is an `error` that may be nil. -/
abbrev GoError := String

/-- A Go `[]byte`. -/
abbrev Bytes := List Nat

/-! ## Middleware chain (`request.go`: `Next`, `Middleware`, `Request.send`) -/

/-- Go `type Next func(req *Request) (*Response, error)`: `ρ` is the request
handle, `α` the returned pair and `σ` everything the call may read or write. -/
def Next (ρ σ α : Type) : Type := ρ → σ → α × σ

/-- Go `type Middleware func(req *Request, next Next) (*Response, error)`. -/
def Middleware (ρ σ α : Type) : Type := ρ → Next ρ σ α → σ → α × σ

/-- The loop of `Request.send`: `for i := len(ms) - 1; i >= 0; i--` wraps the
chain built so far in `ms[i]`. The counter `n` is `i + 1`, so `n = 0` is loop exit. -/
def sendLoop {ρ σ α : Type} (ms : List (Middleware ρ σ α)) :
    Nat → Next ρ σ α → Next ρ σ α
  | 0, chain => chain
  | i + 1, chain =>
    match ms.get? i with
    | some m => sendLoop ms i (fun req => m req chain)
    | none => chain

/-- `Request.send`, with the client's middleware slice and the terminal call
`req.do()` as arguments: builds the chain and applies it to the request. -/
def send {ρ σ α : Type} (middlewares : List (Middleware ρ σ α)) (terminal : Next ρ σ α)
    (r : ρ) : σ → α × σ :=
  sendLoop middlewares middlewares.length terminal r

/-- `Client.Use` on the middleware slice: `append(c.middlewares, middlewares...)`. -/
def useMiddlewares {μ : Type} (registered added : List μ) : List μ :=
  registered ++ added

/-- The chain the specification describes: `m1 (r, next1)` with
`next_i = m_{i+1} (·, next_{i+1})` and the terminal call innermost. -/
def nestedChain {ρ σ α : Type} : List (Middleware ρ σ α) → Next ρ σ α → Next ρ σ α
  | [], terminal => terminal
  | m :: rest, terminal => fun req => m req (nestedChain rest terminal)

/-- A test double: logs `before name`, calls `next`, logs `after name`. -/
def tracer {ρ α : Type} (name : String) : Middleware ρ (List String) α :=
  fun req next log =>
    let (res, log1) := next req (log ++ ["before " ++ name])
    (res, log1 ++ ["after " ++ name])

/-- A terminal call for the test double: logs `do` and returns `res`. -/
def tracedTerminal {ρ α : Type} (res : α) : Next ρ (List String) α :=
  fun _ log => (res, log ++ ["do"])

/-! ## Go maps (`map[K]V`, `maps.Copy`) -/

/-- A Go map: its entries, keys pairwise distinct, in `range` order. -/
abbrev GoMap (κ ν : Type) : Type := List (κ × ν)

/-- `m[k]` with the comma-ok result: `none` when the key is absent. -/
def mapGet {κ ν : Type} [DecidableEq κ] : GoMap κ ν → κ → Option ν
  | [], _ => none
  | (k1, v) :: t, k => if k1 = k then some v else mapGet t k

/-- `m[k] = v`: overwrites the entry of `k` or adds one. -/
def mapSet {κ ν : Type} [DecidableEq κ] : GoMap κ ν → κ → ν → GoMap κ ν
  | [], k, v => [(k, v)]
  | (k1, v1) :: t, k, v => if k1 = k then (k, v) :: t else (k1, v1) :: mapSet t k v

/-- `maps.Copy(dst, src)`: `for k, v := range src { dst[k] = v }`. -/
def mapsCopy {κ ν : Type} [DecidableEq κ] (dst src : GoMap κ ν) : GoMap κ ν :=
  src.foldl (fun d kv => mapSet d kv.1 kv.2) dst

/-- The keys of a map. -/
def mapKeys {κ ν : Type} (m : GoMap κ ν) : List κ := m.map Prod.fst

/-- Well-formedness of a map value: no key occurs twice. -/
def MapWF {κ ν : Type} (m : GoMap κ ν) : Prop := (mapKeys m).Nodup

/-! ## HTTP headers (`net/http.Header`) -/

/-- Go `http.Header`, a `map[string][]string`. -/
abbrev Header : Type := GoMap String (List String)

/-- `Header.Add(key, value)`: appends `value` under the canonical form of `key`. -/
def headerAdd (canon : String → String) (h : Header) (key value : String) : Header :=
  mapSet h (canon key) ((mapGet h (canon key)).getD [] ++ [value])

/-- `Header.Set(key, value)`: the canonical form of `key` gets the single value. -/
def headerSet (canon : String → String) (h : Header) (key value : String) : Header :=
  mapSet h (canon key) [value]

/-- `Header.Get(key)`: the first value under the canonical form of `key`, or `""`. -/
def headerGet (canon : String → String) (h : Header) (key : String) : String :=
  match mapGet h (canon key) with
  | some (v :: _) => v
  | _ => ""

/-- `Header.Clone()`: a copy; values are immutable here, so the header itself. -/
def headerClone (h : Header) : Header := h

/-- The bytes `textproto` accepts in a header field name (RFC 7230 token bytes). -/
def validHeaderFieldByte (c : Char) : Bool :=
  c.isAlphanum || [33, 35, 36, 37, 38, 39, 42, 43, 45, 46, 94, 95, 96, 124, 126].contains c.toNat

/-- The rewriting loop of `textproto.canonicalMIMEHeaderKey`: upper case at the
start and after each `-`, lower case elsewhere. -/
def canonLoop : Bool → List Char → List Char
  | _, [] => []
  | upper, c :: t =>
    let c1 := if upper && c.isLower then c.toUpper
      else if !upper && c.isUpper then c.toLower else c
    c1 :: canonLoop (c1 == '-') t

/-- Go `textproto.CanonicalMIMEHeaderKey`: a key holding a byte that is not a
token byte is returned unchanged, any other is put in canonical case. -/
def canonicalMIMEHeaderKey (s : String) : String :=
  if s.toList.all validHeaderFieldByte then String.mk (canonLoop true s.toList) else s

/-! ## Data model (`client.go`, `request.go`, `file.go`) -/

/-- Go `url.URL`; `User` is the `*Userinfo` (name and optional password). -/
structure URL where
  Scheme : String
  Opaque : String
  User : Option (String × Option String)
  Host : String
  Path : String
  RawPath : String
  OmitHost : Bool
  ForceQuery : Bool
  RawQuery : String
  Fragment : String
  RawFragment : String
deriving DecidableEq, Repr

/-- `URL.IsAbs`: the URL has a scheme. -/
def URL.IsAbs (u : URL) : Bool := u.Scheme != ""

/-- A Go `any` as the JSON setters receive it: nil, a value whose dynamic type is
`map[string]any` (the only type the assertion `.(map[string]any)` accepts; a nil
map of that type reads as the empty map), a map with string keys of any other
type (`map[string]string`, `map[string]int`, a named map type), kept as the name
of its type and its entries, or a value of any other dynamic type, kept as a
description. -/
inductive GoAny where
  | nil : GoAny
  | strMap (entries : List (String × GoAny)) : GoAny
  | typedMap (typ : String) (entries : List (String × GoAny)) : GoAny
  | other (desc : String) : GoAny

/-- `v != nil` on an interface value. -/
def GoAny.isNil : GoAny → Bool
  | GoAny.nil => true
  | _ => false

/-- `m, ok := v.(map[string]any)`: the map and `ok`. -/
def GoAny.asMap : GoAny → GoMap String GoAny × Bool
  | GoAny.strMap entries => (entries, true)
  | _ => ([], false)

/-- An `io.Reader`: the bytes it yields, the error a read ends with (nil at EOF),
and, when the value is also an `io.Closer`, the handle `Close` releases. -/
structure Reader where
  data : Bytes
  readErr : Option GoError
  closer : Option Nat
deriving DecidableEq, Repr

/-- Go `File`. -/
structure File where
  Name : String
  Content : Reader
deriving DecidableEq, Repr

/-- Go `http.Cookie`, the fields the code fills. -/
structure Cookie where
  Name : String
  Value : String
  Path : String
deriving DecidableEq, Repr

/-- Go `context.Context`, as far as the code reads it: `Err()`. -/
structure Context where
  err : Option GoError
deriving DecidableEq, Repr

/-- Go `Client`; `μ` is the middleware type and `CookieJar` the list of
`SetCookies` calls the jar has received. -/
structure Client (μ : Type) where
  middlewares : List μ
  CookieJar : List (URL × List Cookie)
  BaseURL : String
  Headers : Header
  Params : GoMap String String
  FormData : GoMap String String
  JsonData : GoAny
  BodyBytes : Bytes
  Files : GoMap String File

/-- Go `Request`, without the back pointer to its client: the functions below take
the client as a separate argument. -/
structure Request where
  ctx : Context
  method : String
  url : Option URL
  headers : Header
  params : GoMap String String
  jsonData : GoAny
  formData : GoMap String String
  bodyBytes : Bytes
  files : GoMap String File
  err : Option GoError

/-- The body handed to `http.NewRequestWithContext`: a reader over bytes, a reader
over a string, or the buffer a `multipart.Writer` filled, kept as its boundary,
its form fields and its file parts (field name, file name, content). -/
inductive Body where
  | bytes (data : Bytes) : Body
  | text (s : String) : Body
  | multipart (boundary : String) (fields : List (String × String))
      (parts : List (String × String × Bytes)) : Body
deriving DecidableEq, Repr

/-- Go `http.Request` as `Request.do` assembles it. -/
structure HttpRequest where
  ctx : Context
  method : String
  url : String
  body : Option Body
  header : Header
deriving DecidableEq, Repr

/-- Go `http.Response`, the fields the code reads. -/
structure HttpResponse where
  StatusCode : Int
  Header : Header
  Body : Reader
deriving DecidableEq, Repr

/-- Go `url.Values`. -/
abbrev Values : Type := GoMap String (List String)

/-- The functions of the Go standard library and of the transport the code calls. -/
structure Lib where
  /-- `textproto.CanonicalMIMEHeaderKey`. -/
  canon : String → String
  /-- `url.Parse`. -/
  urlParse : String → Except GoError URL
  /-- `path.Join` of two elements. -/
  pathJoin : String → String → String
  /-- `URL.String`. -/
  urlString : URL → String
  /-- `URL.Query`, on the raw query. -/
  parseQuery : String → Values
  /-- `Values.Encode`. -/
  valuesEncode : Values → String
  /-- `json.Marshal`. -/
  jsonMarshal : GoAny → Except GoError Bytes
  /-- The boundary `multipart.NewWriter` draws. -/
  boundary : String
  /-- The error of `Writer.WriteField(key, value)`, if any. -/
  writeFieldErr : String → String → Option GoError
  /-- The error of `Writer.CreateFormFile(fieldName, fileName)`, if any. -/
  createFormFileErr : String → String → Option GoError
  /-- The error of `Writer.Close`, if any. -/
  writerCloseErr : Option GoError
  /-- `http.NewRequestWithContext(ctx, method, url, body)`, before the header is set. -/
  newRequest : Context → String → String → Option Body → Except GoError HttpRequest
  /-- `http.Client.Do`: the answer to a request, given the requests sent before it. -/
  roundTrip : List HttpRequest → HttpRequest → Except GoError HttpResponse

/-- What the request pipeline may touch outside the request and the client: the
handles `Close` has been called on (latest last) and the requests handed to the
transport (latest last). -/
structure World where
  closed : List Nat
  sent : List HttpRequest
deriving DecidableEq, Repr

/-- The header `SetHeaders` builds: `make(http.Header)`, then `Add` per entry. -/
def headerOfMap (canon : String → String) (h : GoMap String String) : Header :=
  h.foldl (fun acc kv => headerAdd canon acc kv.1 kv.2) []

/-- `Client.SetHeaders`: a fresh header filled with `Add` for each entry. -/
def Client.SetHeaders {μ : Type} (lib : Lib) (c : Client μ)
    (h : GoMap String String) : Client μ :=
  { c with Headers := headerOfMap lib.canon h }

/-- `Request.SetHeaders`. -/
def Request.SetHeaders (lib : Lib) (r : Request) (h : GoMap String String) : Request :=
  match r.err with
  | some _ => r
  | none => { r with headers := headerOfMap lib.canon h }

/-- `Request.buildHeaders`: the client's headers cloned, the request's copied over. -/
def Request.buildHeaders {μ : Type} (c : Client μ) (r : Request) : Header :=
  mapsCopy (headerClone c.Headers) r.headers

/-- Go `Response`: the transport's response, the buffered body and the error of
reading it. -/
structure Response where
  Resp : HttpResponse
  bodyBytes : Bytes
  err : Option GoError
deriving DecidableEq, Repr

/-- `NewClient(baseUrl)`: no middleware, empty defaults. -/
def NewClient (μ : Type) (baseUrl : String) : Client μ :=
  { middlewares := [], CookieJar := [], BaseURL := baseUrl, Headers := [], Params := [],
    FormData := [], JsonData := GoAny.nil, BodyBytes := [], Files := [] }

/-- `Client.NewRequestWithContext(ctx)`. -/
def NewRequestWithContext (ctx : Context) : Request :=
  { ctx := ctx, method := "", url := none, headers := [], params := [],
    jsonData := GoAny.nil, formData := [], bodyBytes := [], files := [], err := none }

/-- `Client.NewRequest()`: a request with the background context. -/
def NewRequest : Request := NewRequestWithContext { err := none }

/-- The join branch of `Request.JoinPath` (lines 57-66): falls back to the
client's base URL when the request has no URL, then joins the path. -/
def Request.joinRelative {μ : Type} (lib : Lib) (c : Client μ) (r : Request)
    (p : String) : Request :=
  match r.url with
  | none =>
    match lib.urlParse c.BaseURL with
    | Except.error e => { r with err := some e }
    | Except.ok baseURL =>
      { r with url := some { baseURL with Path := lib.pathJoin baseURL.Path p } }
  | some u => { r with url := some { u with Path := lib.pathJoin u.Path p } }

/-- `Request.JoinPath`. -/
def Request.JoinPath {μ : Type} (lib : Lib) (c : Client μ) (r : Request)
    (p : String) : Request :=
  match r.err with
  | some _ => r
  | none =>
    match lib.urlParse p with
    | Except.ok parsedPath =>
      if parsedPath.IsAbs then { r with url := some parsedPath }
      else r.joinRelative lib c p
    | Except.error _ => r.joinRelative lib c p

/-- `Request.SetURL`. -/
def Request.SetURL (lib : Lib) (r : Request) (rawURL : String) : Request :=
  match r.err with
  | some _ => r
  | none =>
    match lib.urlParse rawURL with
    | Except.error e => { r with err := some e }
    | Except.ok u => { r with url := some u }

/-- `Request.SetParams`. -/
def Request.SetParams (r : Request) (params : GoMap String String) : Request :=
  match r.err with
  | some _ => r
  | none => { r with params := params }

/-- `Request.SetJsonData`. -/
def Request.SetJsonData (lib : Lib) (r : Request) (data : GoAny) : Request :=
  match r.err with
  | some _ => r
  | none =>
    { r with
      jsonData := data
      headers := headerSet lib.canon r.headers "Content-Type" "application/json; charset=utf-8" }

/-- `Request.SetFormData`. -/
def Request.SetFormData (lib : Lib) (r : Request) (data : GoMap String String) : Request :=
  match r.err with
  | some _ => r
  | none =>
    { r with
      formData := data
      headers := headerSet lib.canon r.headers "Content-Type" "application/x-www-form-urlencoded" }

/-- `Request.SetBinary`. -/
def Request.SetBinary (lib : Lib) (r : Request) (data : Bytes) : Request :=
  match r.err with
  | some _ => r
  | none =>
    if headerGet lib.canon r.headers "Content-Type" = "" then
      { r with
        bodyBytes := data
        headers := headerSet lib.canon r.headers "Content-Type" "application/octet-stream" }
    else { r with bodyBytes := data }

/-- `Request.SetFiles`. -/
def Request.SetFiles (r : Request) (files : GoMap String File) : Request :=
  match r.err with
  | some _ => r
  | none => { r with files := files }

/-- `Request.SetCookiesFromMap`: the client (its cookie jar may change) and the
request. -/
def Request.SetCookiesFromMap {μ : Type} (lib : Lib) (c : Client μ) (r : Request)
    (cookies : GoMap String String) : Client μ × Request :=
  match r.err with
  | some _ => (c, r)
  | none =>
    if c.BaseURL = "" then
      let e : GoError := "requesto: cannot set cookies, client BaseURL is not configured"
      (c, { r with err := some e })
    else
      match lib.urlParse c.BaseURL with
      | Except.error e =>
        (c, { r with err := some ("requesto: client BaseURL is invalid: " ++ e) })
      | Except.ok originalURL =>
        let rootURL : URL :=
          { Scheme := originalURL.Scheme, Opaque := "", User := none,
            Host := originalURL.Host, Path := "", RawPath := "", OmitHost := false,
            ForceQuery := false, RawQuery := "", Fragment := "", RawFragment := "" }
        if rootURL.Scheme = "" ∨ rootURL.Host = "" then
          let e : GoError :=
            "requesto: could not determine a valid scheme and host from BaseURL: " ++ c.BaseURL
          (c, { r with err := some e })
        else
          let cookieObjects : List Cookie :=
            cookies.map (fun nv => { Name := nv.1, Value := nv.2, Path := "/" })
          ({ c with CookieJar := c.CookieJar ++ [(rootURL, cookieObjects)] }, r)

/-- `Values.Set(key, value)`. -/
def valuesSet (q : Values) (key value : String) : Values := mapSet q key [value]

/-- The loop `for key, value := range m { q.Set(key, value) }`. -/
def valuesSetAll (q : Values) (m : GoMap String String) : Values :=
  m.foldl (fun acc kv => valuesSet acc kv.1 kv.2) q

/-- `Request.buildURL`: the result and the request, whose `url` it assigns. -/
def Request.buildURL {μ : Type} (lib : Lib) (c : Client μ) (r : Request) :
    Except GoError URL × Request :=
  let fallback : Except GoError URL :=
    if c.BaseURL = "" then
      Except.error "requesto: no URL specified for the request and no BaseURL in client"
    else lib.urlParse c.BaseURL
  let resolved : Except GoError URL :=
    match r.url with
    | none => fallback
    | some u => if lib.urlString u = "" then fallback else Except.ok u
  match resolved with
  | Except.error e => (Except.error e, r)
  | Except.ok u =>
    let finalQuery := valuesSetAll (valuesSetAll (lib.parseQuery u.RawQuery) c.Params) r.params
    let finalURL : URL := { u with RawQuery := lib.valuesEncode finalQuery }
    (Except.ok finalURL, { r with url := some finalURL })

/-- The first loop of `buildMultipartBody`: `WriteField` per form entry, stopping
at the first error; the fields written so far are the accumulator. -/
def writeFieldsLoop (lib : Lib) :
    List (String × String) → List (String × String) → Except GoError (List (String × String))
  | [], written => Except.ok written
  | (key, value) :: rest, written =>
    match lib.writeFieldErr key value with
    | some e => Except.error e
    | none => writeFieldsLoop lib rest (written ++ [(key, value)])

/-- The second loop of `buildMultipartBody`: per file, defer `Close` when the
content is an `io.Closer`, create the part, copy the content. Returns the outcome
and the handles whose `Close` has been deferred, in the order of the `defer`s. -/
def writeFilesLoop (lib : Lib) :
    List (String × File) → List (String × String × Bytes) → List Nat →
      Except GoError (List (String × String × Bytes)) × List Nat
  | [], parts, deferred => (Except.ok parts, deferred)
  | (fieldName, file) :: rest, parts, deferred =>
    let deferred1 :=
      match file.Content.closer with
      | some h => deferred ++ [h]
      | none => deferred
    match lib.createFormFileErr fieldName file.Name with
    | some e => (Except.error e, deferred1)
    | none =>
      match file.Content.readErr with
      | some e => (Except.error e, deferred1)
      | none =>
        writeFilesLoop lib rest (parts ++ [(fieldName, file.Name, file.Content.data)]) deferred1

/-- `Request.buildMultipartBody`: the deferred `Close` calls run, last deferred
first, when the function returns after the second loop was entered. -/
def buildMultipartBody (lib : Lib) (files : GoMap String File)
    (formData : GoMap String String) (w : World) :
    Except GoError (Option Body × String) × World :=
  match writeFieldsLoop lib formData [] with
  | Except.error e => (Except.error e, w)
  | Except.ok fields =>
    match writeFilesLoop lib files [] [] with
    | (res, deferred) =>
      let w1 : World := { w with closed := w.closed ++ deferred.reverse }
      match res with
      | Except.error e => (Except.error e, w1)
      | Except.ok parts =>
        match lib.writerCloseErr with
        | some e => (Except.error e, w1)
        | none =>
          (Except.ok (some (Body.multipart lib.boundary fields parts),
            "multipart/form-data; boundary=" ++ lib.boundary), w1)

/-- Lines 284-296 of `buildBody`: the JSON value that will be encoded. -/
def Request.finalJsonData {μ : Type} (c : Client μ) (r : Request) : GoAny :=
  let clientJson := c.JsonData.asMap
  let reqJson := r.jsonData.asMap
  if !c.JsonData.isNil && !r.jsonData.isNil && clientJson.2 && reqJson.2 then
    GoAny.strMap (mapsCopy (mapsCopy [] clientJson.1) reqJson.1)
  else if !r.jsonData.isNil then r.jsonData
  else c.JsonData

/-- Lines 303-310 of `buildBody`: the JSON branch. -/
def Request.jsonBody (lib : Lib) (r : Request) (finalJsonData : GoAny) (w : World) :
    Except GoError (Option Body × String) × World :=
  match lib.jsonMarshal finalJsonData with
  | Except.error e => (Except.error e, w)
  | Except.ok jsonDataBytes =>
    (Except.ok (some (Body.bytes jsonDataBytes),
      if headerGet lib.canon r.headers "Content-Type" = "" then
        "application/json; charset=utf-8" else ""), w)

/-- Lines 314-321 of `buildBody`: the form branch. -/
def Request.formBody (lib : Lib) (r : Request) (finalFormData : GoMap String String)
    (w : World) : Except GoError (Option Body × String) × World :=
  (Except.ok (some (Body.text (lib.valuesEncode (valuesSetAll [] finalFormData))),
    if headerGet lib.canon r.headers "Content-Type" = "" then
      "application/x-www-form-urlencoded" else ""), w)

/-- `Request.buildBody`: the body reader (`none` is the nil reader), the content
type it implies, and the world after it. -/
def Request.buildBody {μ : Type} (lib : Lib) (c : Client μ) (r : Request) (w : World) :
    Except GoError (Option Body × String) × World :=
  let finalFormData := mapsCopy (mapsCopy [] c.FormData) r.formData
  let finalFiles := mapsCopy (mapsCopy [] c.Files) r.files
  if finalFiles.length > 0 then buildMultipartBody lib finalFiles finalFormData w
  else
    let finalBodyBytes := if r.bodyBytes.length = 0 then c.BodyBytes else r.bodyBytes
    let finalJsonData := r.finalJsonData c
    if finalBodyBytes.length > 0 then (Except.ok (some (Body.bytes finalBodyBytes), ""), w)
    else if !finalJsonData.isNil then r.jsonBody lib finalJsonData w
    else if finalFormData.length > 0 then r.formBody lib finalFormData w
    else (Except.ok (none, ""), w)

/-- `newResponse`: reads the whole body, closes it, keeps the bytes and the error. -/
def newResponse (resp : HttpResponse) (w : World) : Response × World :=
  ({ Resp := resp, bodyBytes := resp.Body.data, err := resp.Body.readErr },
    match resp.Body.closer with
    | some h => { w with closed := w.closed ++ [h] }
    | none => w)

/-- `Request.do`: the terminal call. Returns the result, the request (whose `url`
and headers it may assign) and the world. -/
def Request.do_ {μ : Type} (lib : Lib) (c : Client μ) (r : Request) (w : World) :
    Except GoError Response × Request × World :=
  match r.err with
  | some e => (Except.error e, r, w)
  | none =>
    match r.buildURL lib c with
    | (Except.error e, r1) => (Except.error e, r1, w)
    | (Except.ok finalURL, r1) =>
      match r1.buildBody lib c w with
      | (Except.error e, w1) => (Except.error e, r1, w1)
      | (Except.ok (body, contentType), w1) =>
        let r2 : Request :=
          if contentType ≠ "" then
            { r1 with headers := headerSet lib.canon r1.headers "Content-Type" contentType }
          else r1
        match lib.newRequest r2.ctx r2.method (lib.urlString finalURL) body with
        | Except.error e => (Except.error e, r2, w1)
        | Except.ok req =>
          let req1 : HttpRequest := { req with header := r2.buildHeaders c }
          let w2 : World := { w1 with sent := w1.sent ++ [req1] }
          match lib.roundTrip w1.sent req1 with
          | Except.error e => (Except.error e, r2, w2)
          | Except.ok resp =>
            match newResponse resp w2 with
            | (response, w3) => (Except.ok response, r2, w3)

/-- The values a `map[string]string` holds for the keys whose canonical form is
`K`, in `range` order. -/
def valuesFor (canon : String → String) (h : GoMap String String) (K : String) :
    List String :=
  (h.filter (fun kv => canon kv.1 = K)).map Prod.snd

/-! ## A reference instance of the library record

Models of the standard-library functions on plain inputs, used to evaluate the
definitions above on concrete requests. They follow the Go sources of `path`,
`net/url` and `net/textproto`. A Go string is read as the Lean string of its
bytes, one character of code below 256 per byte. The URL parser covers inputs
made of ASCII letters, digits and the punctuation `-._~:/?#=&`, where no
percent-escaping or unescaping takes place, and rejects every other input, which
`net/url` does only for some of them; the query codec (`QueryEscape`,
`ParseQuery`, `Values.Encode`) covers every byte. -/

/-- Splits at each `/`, keeping empty segments. -/
def splitSlash : List Char → List (List Char)
  | [] => [[]]
  | c :: t =>
    if c = '/' then [] :: splitSlash t
    else
      match splitSlash t with
      | [] => [[c]]
      | h :: rest => (c :: h) :: rest

/-- One path element in `path.Clean`; the stack holds the output elements, last
first. Empty and `.` elements are dropped, `..` removes the last real element, is
kept when the path is not rooted and there is none, and is dropped at the root. -/
def cleanStep (rooted : Bool) (stack : List (List Char)) (comp : List Char) :
    List (List Char) :=
  if comp = [] ∨ comp = ['.'] then stack
  else if comp = ['.', '.'] then
    match stack with
    | [] => if rooted then [] else [comp]
    | top :: rest => if top = ['.', '.'] then comp :: stack else rest
  else comp :: stack

/-- Joins path elements with `/`. -/
def joinSlash : List (List Char) → List Char
  | [] => []
  | [a] => a
  | a :: b :: t => a ++ '/' :: joinSlash (b :: t)

/-- Go `path.Clean`. -/
def pathClean (p : List Char) : List Char :=
  let rooted : Bool := p.head? = some '/'
  let stack := (splitSlash p).foldl (cleanStep rooted) []
  let out := (if rooted then ['/'] else []) ++ joinSlash stack.reverse
  if out = [] then ['.'] else out

/-- Go `path.Join(a, b)`. -/
def pathJoin (a b : String) : String :=
  if a.toList = [] ∧ b.toList = [] then ""
  else if a.toList = [] then String.mk (pathClean b.toList)
  else String.mk (pathClean (a.toList ++ '/' :: b.toList))

/-- The bytes the reference URL parser accepts. -/
def plainURLByte (c : Char) : Bool :=
  c.isAlphanum || ['-', '.', '_', '~', ':', '/', '?', '#', '=', '&'].contains c

/-- Splits at the first occurrence of `sep`: the part before it, and the part
after it when `sep` occurs. -/
def cutAt (sep : Char) : List Char → List Char × Option (List Char)
  | [] => ([], none)
  | c :: t =>
    if c = sep then ([], some t)
    else
      match cutAt sep t with
      | (before, after) => (c :: before, after)

/-- The scan of `url.getScheme`, `i` characters into the input: the scheme and
the rest, `none` for a missing scheme before `:`. -/
def getSchemeLoop : Bool → List Char → List Char → List Char → Option (List Char × List Char)
  | _, _, whole, [] => some ([], whole)
  | first, acc, whole, c :: t =>
    if c.isAlpha then getSchemeLoop false (acc ++ [c]) whole t
    else if c.isDigit ∨ c = '+' ∨ c = '-' ∨ c = '.' then
      if first then some ([], whole) else getSchemeLoop false (acc ++ [c]) whole t
    else if c = ':' then
      if first then none else some (acc, t)
    else some ([], whole)

/-- Go `url.Parse`, on plain inputs. -/
def urlParse (rawURL : String) : Except GoError URL :=
  if rawURL.toList.any (fun c => c.toNat < 32 ∨ c.toNat = 127) then
    Except.error "net/url: invalid control character in URL"
  else if ¬ rawURL.toList.all plainURLByte then
    Except.error "net/url: input outside the plain fragment"
  else
    match cutAt '#' rawURL.toList with
    | (u, frag) =>
      match getSchemeLoop true [] u u with
      | none => Except.error "missing protocol scheme"
      | some (scheme, rest0) =>
        let scheme := scheme.map Char.toLower
        let forceQuery : Bool := rest0.getLast? = some '?' ∧ rest0.count '?' = 1
        let rest1 := if forceQuery then rest0.dropLast else (cutAt '?' rest0).1
        let rawQuery := if forceQuery then [] else ((cutAt '?' rest0).2).getD []
        let base : URL :=
          { Scheme := String.mk scheme, Opaque := "", User := none, Host := "", Path := "",
            RawPath := "", OmitHost := false, ForceQuery := forceQuery,
            RawQuery := String.mk rawQuery, Fragment := String.mk (frag.getD []),
            RawFragment := "" }
        if rest1.head? ≠ some '/' ∧ scheme ≠ [] then
          Except.ok { base with Opaque := String.mk rest1 }
        else if rest1.head? ≠ some '/' ∧ (cutAt '/' rest1).1.contains ':' then
          Except.error "first path segment in URL cannot contain colon"
        else if (scheme ≠ [] ∨ rest1.take 3 ≠ ['/', '/', '/']) ∧ rest1.take 2 = ['/', '/'] then
          match cutAt '/' (rest1.drop 2) with
          | (authority, path) =>
            Except.ok { base with
              Host := String.mk authority
              Path := String.mk (match path with
                | some p => '/' :: p
                | none => []) }
        else if scheme ≠ [] ∧ rest1.head? = some '/' then
          Except.ok { base with OmitHost := true, Path := String.mk rest1 }
        else Except.ok { base with Path := String.mk rest1 }

/-- Go `URL.String`, with no byte to escape. -/
def urlString (u : URL) : String :=
  let scheme := if u.Scheme.toList = [] then [] else u.Scheme.toList ++ [':']
  let body :=
    if u.Opaque.toList ≠ [] then scheme ++ u.Opaque.toList
    else
      let user :=
        match u.User with
        | none => []
        | some (name, none) => name.toList ++ ['@']
        | some (name, some pw) => name.toList ++ ':' :: pw.toList ++ ['@']
      let authority :=
        if u.Scheme.toList ≠ [] ∨ u.Host.toList ≠ [] ∨ u.User ≠ none then
          if u.OmitHost ∧ u.Host.toList = [] ∧ u.User = none then []
          else
            (if u.Host.toList ≠ [] ∨ u.Path.toList ≠ [] ∨ u.User ≠ none then ['/', '/'] else [])
              ++ user ++ u.Host.toList
        else []
      let sep :=
        if u.Path.toList ≠ [] ∧ u.Path.toList.head? ≠ some '/' ∧ u.Host.toList ≠ [] then ['/']
        else []
      let buf := scheme ++ authority ++ sep
      let dot := if buf = [] ∧ (cutAt '/' u.Path.toList).1.contains ':' then ['.', '/'] else []
      buf ++ dot ++ u.Path.toList
  let query :=
    if u.ForceQuery ∨ u.RawQuery.toList ≠ [] then '?' :: u.RawQuery.toList else []
  let fragment := if u.Fragment.toList ≠ [] then '#' :: u.Fragment.toList else []
  String.mk (body ++ query ++ fragment)

/-- Splits at each `&`. -/
def splitAmp : List Char → List (List Char)
  | [] => [[]]
  | c :: t =>
    if c = '&' then [] :: splitAmp t
    else
      match splitAmp t with
      | [] => [[c]]
      | h :: rest => (c :: h) :: rest

/-- The digit `"0123456789ABCDEF"[d]` of `url.escape`. -/
def upperHex : Nat → Char
  | 0 => '0'
  | 1 => '1'
  | 2 => '2'
  | 3 => '3'
  | 4 => '4'
  | 5 => '5'
  | 6 => '6'
  | 7 => '7'
  | 8 => '8'
  | 9 => '9'
  | 10 => 'A'
  | 11 => 'B'
  | 12 => 'C'
  | 13 => 'D'
  | 14 => 'E'
  | _ => 'F'

/-- Go `url.ishex`. -/
def ishex (c : Char) : Bool :=
  (48 ≤ c.toNat && c.toNat ≤ 57) || (97 ≤ c.toNat && c.toNat ≤ 102)
    || (65 ≤ c.toNat && c.toNat ≤ 70)

/-- Go `url.unhex`. -/
def unhex (c : Char) : Nat :=
  if 48 ≤ c.toNat ∧ c.toNat ≤ 57 then c.toNat - 48
  else if 97 ≤ c.toNat ∧ c.toNat ≤ 102 then c.toNat - 97 + 10
  else if 65 ≤ c.toNat ∧ c.toNat ≤ 70 then c.toNat - 65 + 10
  else 0

/-- Go `url.shouldEscape(c, encodeQueryComponent)`: every byte but the unreserved
ones (letters, digits, `-`, `_`, `.`, `~`) is escaped. -/
def shouldEscape (c : Char) : Bool :=
  !(c.isAlphanum || c = '-' || c = '_' || c = '.' || c = '~')

/-- Go `url.QueryEscape` on the bytes of a string: a space becomes `+`, any other
escaped byte `%XX`. -/
def escapeChars : List Char → List Char
  | [] => []
  | c :: t =>
    if shouldEscape c then
      if c = ' ' then '+' :: escapeChars t
      else '%' :: upperHex (c.toNat / 16 % 16) :: upperHex (c.toNat % 16) :: escapeChars t
    else c :: escapeChars t

/-- Go `url.QueryUnescape` on the bytes of a string: `%XX` becomes the byte, `+` a
space; a `%` not followed by two hex digits is an error. -/
def unescapeChars : List Char → Except GoError (List Char)
  | [] => Except.ok []
  | c :: rest =>
    if c = '%' then
      match rest with
      | a :: b :: t =>
        if ishex a && ishex b then
          match unescapeChars t with
          | Except.ok u => Except.ok (Char.ofNat (16 * unhex a + unhex b) :: u)
          | Except.error e => Except.error e
        else Except.error "invalid URL escape"
      | _ => Except.error "invalid URL escape"
    else
      match unescapeChars rest with
      | Except.ok u => Except.ok ((if c = '+' then ' ' else c) :: u)
      | Except.error e => Except.error e

/-- One round of the loop of `url.parseQuery`, on the piece before the next `&`:
a piece with a `;` sets the error, an empty piece is skipped, a piece whose key or
value does not unescape sets the error if none is set, any other piece appends its
value to the values of its key. -/
def parseQueryStep (acc : Values × Option GoError) (piece : List Char) :
    Values × Option GoError :=
  if piece.contains ';' then (acc.1, some "invalid semicolon separator in query")
  else if piece = [] then acc
  else
    match cutAt '=' piece with
    | (key, value) =>
      match unescapeChars key with
      | Except.error e => (acc.1, if acc.2 = none then some e else acc.2)
      | Except.ok k =>
        match unescapeChars (value.getD []) with
        | Except.error e => (acc.1, if acc.2 = none then some e else acc.2)
        | Except.ok v =>
          (mapSet acc.1 (String.mk k) ((mapGet acc.1 (String.mk k)).getD [] ++ [String.mk v]),
            acc.2)

/-- Go `url.ParseQuery`: the values and the first error. -/
def parseQueryErr (query : String) : Values × Option GoError :=
  (splitAmp query.toList).foldl parseQueryStep ([], none)

/-- Go `URL.Query`: `url.ParseQuery` with the error dropped. -/
def parseQuery (rawQuery : String) : Values := (parseQueryErr rawQuery).1

/-- Lexicographic `<=` on strings by byte, the order of `sort.Strings`. -/
def strLe : List Char → List Char → Bool
  | [], _ => true
  | _ :: _, [] => false
  | a :: s, b :: t => a.toNat < b.toNat || (a.toNat = b.toNat && strLe s t)

/-- Insertion into a list of entries sorted by key. -/
def insertByKey (kv : String × List String) :
    List (String × List String) → List (String × List String)
  | [] => [kv]
  | h :: t => if strLe kv.1.toList h.1.toList then kv :: h :: t else h :: insertByKey kv t

/-- The `key=value` piece `Values.Encode` writes for one value of a key. -/
def encodePiece (kv : String × String) : List Char :=
  escapeChars kv.1.toList ++ '=' :: escapeChars kv.2.toList

/-- The key-value pairs of a `url.Values`, key by key. -/
def pairsOf (v : Values) : List (String × String) :=
  v.flatMap (fun kv => kv.2.map (fun x => (kv.1, x)))

/-- Joins pieces with `&`. -/
def joinAmp : List (List Char) → List Char
  | [] => []
  | [a] => a
  | a :: b :: t => a ++ '&' :: joinAmp (b :: t)

/-- Go `Values.Encode`: keys sorted, one escaped `key=value` piece per value,
joined by `&`. -/
def valuesEncode (v : Values) : String :=
  let sorted := v.foldl (fun acc kv => insertByKey kv acc) []
  String.mk (joinAmp ((pairsOf sorted).map encodePiece))

mutual
/-- The JSON text of a value: nil is `null`, a map is an object with its members
in entry order (`json.Marshal` sorts them by key), any other value is rendered as
its description. -/
def jsonText : GoAny → List Char
  | GoAny.nil => ['n', 'u', 'l', 'l']
  | GoAny.other desc => desc.toList
  | GoAny.strMap entries => Char.ofNat 123 :: jsonMembers entries ++ [Char.ofNat 125]
  | GoAny.typedMap _ entries => Char.ofNat 123 :: jsonMembers entries ++ [Char.ofNat 125]
/-- The members of a JSON object, separated by commas. -/
def jsonMembers : List (String × GoAny) → List Char
  | [] => []
  | [(k, v)] => '"' :: k.toList ++ '"' :: ':' :: jsonText v
  | (k, v) :: t => '"' :: k.toList ++ '"' :: ':' :: jsonText v ++ ',' :: jsonMembers t
end

/-- A stand-in for `json.Marshal`: the text above as bytes; the value described as
`chan` cannot be encoded. -/
def jsonMarshal : GoAny → Except GoError Bytes
  | GoAny.other "chan" => Except.error "json: unsupported type: chan int"
  | v => Except.ok ((jsonText v).map Char.toNat)

/-- `http.NewRequestWithContext`: an empty method means `GET`, a method that is
not a token is refused. -/
def newRequest (ctx : Context) (method url : String) (body : Option Body) :
    Except GoError HttpRequest :=
  if method.toList.all validHeaderFieldByte then
    Except.ok { ctx := ctx, method := if method = "" then "GET" else method, url := url,
                body := body, header := [] }
  else Except.error "net/http: invalid method"

/-- The reference library: the models above, a multipart writer that never fails,
and a transport answering every request with an empty `200`. -/
def refLib : Lib :=
  { canon := canonicalMIMEHeaderKey
    urlParse := urlParse
    pathJoin := pathJoin
    urlString := urlString
    parseQuery := parseQuery
    valuesEncode := valuesEncode
    jsonMarshal := jsonMarshal
    boundary := "boundary0"
    writeFieldErr := fun _ _ => none
    createFormFileErr := fun _ _ => none
    writerCloseErr := none
    newRequest := newRequest
    roundTrip := fun _ _ =>
      Except.ok { StatusCode := 200, Header := [], Body := { data := [], readErr := none, closer := none } } }

/-! ## Retry middleware (`middleware/retry.go`) -/

/-- A Go `int` (64 bits) after an arithmetic operation: the result wraps around. -/
def wrapInt (x : Int) : Int := (x + 9223372036854775808) % 18446744073709551616 - 9223372036854775808

/-- The largest Go `int`, `math.MaxInt`. -/
def maxInt : Int := 9223372036854775807

/-- Go `RetryPolicy`; `RetryBackoff` is a `time.Duration` in nanoseconds and
`RetryIf = none` is the nil function. -/
structure RetryPolicy (R : Type) where
  RetryCount : Int
  RetryBackoff : Int
  RetryIf : Option (Option R → Option GoError → Bool)

/-- The effects of the retry loop outside `next`: `log.Printf` with the error and
the backoff, and `time.Sleep`. -/
structure RetryEnv (σ : Type) where
  logPrintf : Option GoError → Int → σ → σ
  sleep : Int → σ → σ

/-- The loop of the retry middleware, `for i := 0; i < RetryCount+1; i++`, with the
policy already normalised and `limit` the value of `RetryCount+1`. The first
argument bounds the iterations left; `NewRetrier` passes `limit`, which the loop
cannot exceed as `i` starts at 0 and grows by one. `last` is `(resp, err)`. -/
def retryLoop {ρ σ R : Type} (env : RetryEnv σ)
    (retryIf : Option R → Option GoError → Bool) (retryCount retryBackoff limit : Int)
    (req : ρ) (next : Next ρ σ (Option R × Option GoError)) :
    Nat → Int → Option R × Option GoError → σ → (Option R × Option GoError) × σ
  | 0, _, last, s => (last, s)
  | fuel + 1, i, last, s =>
    if i < limit then
      match next req s with
      | (res, s1) =>
        if !retryIf res.1 res.2 then (res, s1)
        else if i = retryCount then (res, s1)
        else
          retryLoop env retryIf retryCount retryBackoff limit req next fuel (wrapInt (i + 1)) res
            (env.sleep retryBackoff (env.logPrintf res.2 retryBackoff s1))
    else (last, s)

/-- `NewRetrier`: normalises the policy and returns the middleware. -/
def NewRetrier {ρ σ R : Type} (env : RetryEnv σ) (policy : RetryPolicy R) :
    Middleware ρ σ (Option R × Option GoError) :=
  let retryIf : Option R → Option GoError → Bool :=
    match policy.RetryIf with
    | none => fun _ err => err.isSome
    | some f => f
  let retryCount : Int := if policy.RetryCount ≤ 0 then 3 else policy.RetryCount
  let retryBackoff : Int := if policy.RetryBackoff ≤ 0 then 1000000000 else policy.RetryBackoff
  fun req next s =>
    retryLoop env retryIf retryCount retryBackoff (wrapInt (retryCount + 1)) req next
      (wrapInt (retryCount + 1)).toNat 0 (none, none) s

/-- A continuation instrumented with a counter of its invocations. -/
def countingNext {ρ σ α : Type} (next : Next ρ σ α) : Next ρ (σ × Nat) α :=
  fun req s =>
    match next req s.1 with
    | (res, s1) => (res, (s1, s.2 + 1))

/-- The loop's effects on a world that carries the invocation counter along. -/
def countingEnv {σ : Type} (env : RetryEnv σ) : RetryEnv (σ × Nat) :=
  { logPrintf := fun err backoff s => (env.logPrintf err backoff s.1, s.2)
    sleep := fun d s => (env.sleep d s.1, s.2) }

/-- One unsuccessful attempt followed by the log line and the sleep. -/
def retryRound {ρ σ R : Type} (env : RetryEnv σ) (retryBackoff : Int) (req : ρ)
    (next : Next ρ σ (Option R × Option GoError)) (s : σ) : σ :=
  env.sleep retryBackoff (env.logPrintf (next req s).1.2 retryBackoff (next req s).2)

/-! ## Concurrency manager (`async.go`)

`ConcurrencyManager.Run` is a transition system: the main goroutine pushes the
tasks into `tasksCh`, closes it, waits for the workers and collects `resultsCh`;
each worker receives a task, sends its result and leaves when the channel is closed
and empty. An interleaving is a list of actions, each taken by whoever is able to
move. Both channels are buffered with capacity `len(cm.tasks)`, so no send blocks. -/

/-- Go `Task`; `Request` is the request the non-nil pointer refers to. -/
structure Task where
  ID : String
  Request : Request

/-- Go `Result`; `none` is the nil response, respectively the nil error. -/
structure Result where
  TaskID : String
  Response : Option Response
  Error : Option GoError
deriving DecidableEq, Repr

/-- Where a worker goroutine stands: blocked at `for task := range tasksCh`,
holding a task it received and has not answered yet, or past the loop. -/
inductive WorkerState where
  | waiting : WorkerState
  | holding (task : Task) : WorkerState
  | exited : WorkerState

/-- Whether the worker has left its loop (`wg.Done()` has run). -/
def WorkerState.isExited : WorkerState → Bool
  | WorkerState.exited => true
  | _ => false

/-- The state of one call of `Run`: the tasks the main goroutine still has to
push, whether `tasksCh` is closed, the contents of both channels, the workers,
`cm.config.ctx.Err()`, the IDs of the tasks whose `Request.Get` was called, and the
slice `Run` returned, if it has. -/
structure RunState where
  pending : List Task
  closed : Bool
  tasksCh : List Task
  workers : List WorkerState
  resultsCh : List Result
  ctxErr : Option GoError
  gets : List String
  returned : Option (List Result)

/-- One move of an interleaving. `work i resp err` is worker `i` handling the task
it holds: `resp` and `err` are what `Request.Get` returns if it is called.
`cancel e` is the context being cancelled, by whoever owns it. -/
inductive Action where
  | push : Action
  | close : Action
  | recv (i : Nat) : Action
  | exit (i : Nat) : Action
  | work (i : Nat) (resp : Option Response) (err : Option GoError) : Action
  | cancel (e : GoError) : Action
  | finish : Action

/-- The state in which `Run` starts pushing: the workers are started, nothing is
sent yet. -/
def initRun (tasks : List Task) (poolSize : Nat) (ctxErr : Option GoError) : RunState :=
  { pending := tasks, closed := false, tasksCh := [],
    workers := List.replicate poolSize WorkerState.waiting, resultsCh := [],
    ctxErr := ctxErr, gets := [], returned := none }

/-- The effect of an action, `none` when it is not enabled. -/
def step (a : Action) (s : RunState) : Option RunState :=
  match s.returned with
  | some _ => none
  | none =>
    match a with
    | Action.push =>
      match s.pending with
      | [] => none
      | t :: rest => some { s with pending := rest, tasksCh := s.tasksCh ++ [t] }
    | Action.close =>
      match s.pending, s.closed with
      | [], false => some { s with closed := true }
      | _, _ => none
    | Action.recv i =>
      match s.workers[i]?, s.tasksCh with
      | some WorkerState.waiting, t :: q =>
        some { s with workers := s.workers.set i (WorkerState.holding t), tasksCh := q }
      | _, _ => none
    | Action.exit i =>
      match s.workers[i]?, s.tasksCh, s.closed with
      | some WorkerState.waiting, [], true =>
        some { s with workers := s.workers.set i WorkerState.exited }
      | _, _, _ => none
    | Action.work i resp err =>
      match s.workers[i]? with
      | some (WorkerState.holding t) =>
        match s.ctxErr with
        | some e =>
          some { s with
            workers := s.workers.set i WorkerState.waiting
            resultsCh := s.resultsCh ++ [{ TaskID := t.ID, Response := none, Error := some e }] }
        | none =>
          some { s with
            workers := s.workers.set i WorkerState.waiting
            gets := s.gets ++ [t.ID]
            resultsCh := s.resultsCh ++ [{ TaskID := t.ID, Response := resp, Error := err }] }
      | _ => none
    | Action.cancel e =>
      match s.ctxErr with
      | none => some { s with ctxErr := some e }
      | some _ => none
    | Action.finish =>
      if s.closed ∧ s.workers.all WorkerState.isExited then
        some { s with returned := some s.resultsCh }
      else none

/-- An interleaving run from a state; `none` when one of its actions is not enabled. -/
def runActions : List Action → RunState → Option RunState
  | [], s => some s
  | a :: rest, s =>
    match step a s with
    | none => none
    | some s1 => runActions rest s1

/-- The IDs of the tasks a worker holds. -/
def heldID : WorkerState → List String
  | WorkerState.holding t => [t.ID]
  | _ => []

/-- The IDs of the tasks held by the workers. -/
def heldIDs (ws : List WorkerState) : List String := ws.flatMap heldID

/-- What a worker still owes: two moves and its exit while it holds a task, its
exit while it waits. -/
def workerWeight : WorkerState → Nat
  | WorkerState.waiting => 1
  | WorkerState.holding _ => 3
  | WorkerState.exited => 0

/-- A bound on the moves left: every action lowers it. -/
def movesLeft (s : RunState) : Nat :=
  4 * s.pending.length + 3 * s.tasksCh.length + (s.workers.map workerWeight).sum
    + (if s.closed then 0 else 1) + (if s.returned.isSome then 0 else 1)
    + (if s.ctxErr.isSome then 0 else 1)

/-- The result a worker records for a task when the context is cancelled. -/
def cancelledResult (e : GoError) (t : Task) : Result :=
  { TaskID := t.ID, Response := none, Error := some e }

/-- The slice `Run` returns under the interleaving `acts`, `none` when the
interleaving is not one of `Run` or `Run` has not returned at its end. -/
def runResult (tasks : List Task) (poolSize : Nat) (ctxErr : Option GoError)
    (acts : List Action) : Option (List Result) :=
  match runActions acts (initRun tasks poolSize ctxErr) with
  | none => none
  | some s => s.returned

/-- The invariant of `Run`: every task ID is, with its multiplicity, in exactly one
of the four places; a closed channel means every task was pushed; a worker has left
only if the channel is closed and empty; the pool keeps its size; what `Run`
returned is the content of `resultsCh` after all workers left. -/
structure RunInv (tasks : List Task) (poolSize : Nat) (s : RunState) : Prop where
  ids : ∀ x : String,
    (s.pending.map Task.ID).count x + (s.tasksCh.map Task.ID).count x
      + (heldIDs s.workers).count x + (s.resultsCh.map Result.TaskID).count x
      = (tasks.map Task.ID).count x
  closedPending : s.closed = true → s.pending = []
  exitedDone : WorkerState.exited ∈ s.workers → s.closed = true ∧ s.tasksCh = []
  size : s.workers.length = poolSize
  ret : ∀ rs, s.returned = some rs →
    rs = s.resultsCh ∧ s.workers.all WorkerState.isExited = true

/-- The invariant of a run whose context was cancelled before it started. -/
structure CancelledInv (e : GoError) (s : RunState) : Prop where
  ctx : s.ctxErr = some e
  noGet : s.gets = []
  res : ∀ r ∈ s.resultsCh, r.Response = none ∧ r.Error = some e

/-! ## Response accessors (`response.go`, `errors.go`)

The pointer `Resp` of a `Response` built by `newResponse` is never nil, and is
taken so. `json.Unmarshal` and the cookie reader of `net/http` are arguments. -/

/-- Go `ErrUnmarshallingJSON`. -/
def ErrUnmarshallingJSON : GoError := "requesto: error unmarshalling JSON response"

/-- Go `ErrUnmarshallingStruct`. -/
def ErrUnmarshallingStruct : GoError :=
  "requesto: error unmarshalling struct from JSON response"

/-- The conversion `string(b)` of a byte slice. -/
def bytesToString (b : Bytes) : String := String.mk (b.map Char.ofNat)

/-- `Response.StatusCode`. -/
def Response.StatusCode (r : Response) : Int :=
  match r.err with
  | some _ => -1
  | none => r.Resp.StatusCode

/-- `Response.Header`; `none` is the nil header. -/
def Response.Header (r : Response) : Option Header :=
  match r.err with
  | some _ => none
  | none => some r.Resp.Header

/-- `Response.Text`. -/
def Response.Text (r : Response) : String × Option GoError :=
  match r.err with
  | some e => ("", some e)
  | none => (bytesToString r.bodyBytes, none)

/-- `Response.Bytes`; `none` is the nil slice. -/
def Response.Bytes (r : Response) : Option Bytes × Option GoError :=
  match r.err with
  | some e => (none, some e)
  | none => (some r.bodyBytes, none)

/-- `Response.Json`; `unmarshal` is `json.Unmarshal` into a nil `map[string]any`,
giving what the map holds afterwards (`none` for a nil map) and the error. -/
def Response.Json
    (unmarshal : Requesto.Bytes → Option (GoMap String GoAny) × Option GoError)
    (r : Response) :
    Option (GoMap String GoAny) × Option GoError :=
  match r.err with
  | some e => (none, some e)
  | none =>
    if r.bodyBytes.length = 0 then (none, none)
    else
      match unmarshal r.bodyBytes with
      | (m, some _) => (m, some ErrUnmarshallingJSON)
      | (m, none) => (m, none)

/-- `Response.Unmarshal(v)`: what `v` points to afterwards, and the error;
`unmarshal` is `json.Unmarshal` into the target. -/
def Response.Unmarshal {τ : Type} (unmarshal : Requesto.Bytes → τ → τ × Option GoError)
    (r : Response) (v : τ) : τ × Option GoError :=
  match r.err with
  | some e => (v, some e)
  | none =>
    if r.bodyBytes.length = 0 then (v, none)
    else
      match unmarshal r.bodyBytes v with
      | (v1, some e) => (v1, some (ErrUnmarshallingStruct ++ ": " ++ e))
      | (v1, none) => (v1, none)

/-- `ToStruct[T]`; `zero` is the zero value of `T`. -/
def ToStruct {τ : Type} (zero : τ) (unmarshal : Bytes → τ → τ × Option GoError)
    (r : Response) : τ × Option GoError :=
  match r.err with
  | some e => (zero, some e)
  | none =>
    if r.bodyBytes.length = 0 then (zero, none)
    else
      match unmarshal r.bodyBytes zero with
      | (_, some e) => (zero, some (ErrUnmarshallingStruct ++ ": " ++ e))
      | (target, none) => (target, none)

/-- `Response.Cookies`; `readSetCookies` is `http.Response.Cookies` on the header. -/
def Response.Cookies (readSetCookies : Requesto.Header → List Cookie) (r : Response) :
    List Cookie :=
  match r.err with
  | some _ => []
  | none => readSetCookies r.Resp.Header

/-! ## Convenience functions (`requesto.go`) -/

/-- An argument of the variadic `Get`, by dynamic type: nil, `Headers`, the internal
`requestHeaders` (from `AsHeaders`), `queryParams` (from `AsParams`), `Params`,
`FormData`, `Files`, `jsonBody`, `formBody`, `filesBody`, or a value of any other
type, kept as the name of its type. The map inside a `queryParams` is the one the
caller gave to `AsParams`, which may be the nil map (`none`); the header inside a
`requestHeaders` is the one `AsHeaders` allocates, never nil. -/
inductive Arg where
  | nil : Arg
  | Headers (v : GoMap String String) : Arg
  | requestHeaders (data : Header) : Arg
  | queryParams (data : Option (GoMap String String)) : Arg
  | Params (v : GoMap String String) : Arg
  | FormData (v : GoMap String String) : Arg
  | Files (v : GoMap String File) : Arg
  | jsonBody (data : GoAny) : Arg
  | formBody (data : GoMap String String) : Arg
  | filesBody (data : GoMap String File) : Arg
  | other (typeName : String) : Arg

/-- `AsHeaders`: a fresh header filled with `Set` for each entry. -/
def AsHeaders (lib : Lib) (data : GoMap String String) : Arg :=
  Arg.requestHeaders (data.foldl (fun h kv => headerSet lib.canon h kv.1 kv.2) [])

/-- `AsParams`: wraps the map as it is; `none` is the nil map. -/
def AsParams (data : Option (GoMap String String)) : Arg := Arg.queryParams data

/-- `AsJson`. -/
def AsJson (data : GoAny) : Arg := Arg.jsonBody data

/-- `AsForm`. -/
def AsForm (data : GoMap String String) : Arg := Arg.formBody data

/-- `AsFiles`. -/
def AsFiles (data : GoMap String File) : Arg := Arg.filesBody data

/-- Whether a type-switch case on `JsonData` matches: `JsonData` is declared as
`type JsonData any`, the empty interface, which every non-nil value implements. -/
def Arg.implementsJsonData : Arg → Bool
  | Arg.nil => false
  | _ => true

/-- Whether the fifth case of the type switch of `Get`,
`case JsonData, FormData, Files, jsonBody, formBody, filesBody`, matches. -/
def Arg.isBodyCase (a : Arg) : Bool :=
  a.implementsJsonData ||
    match a with
    | Arg.FormData _ => true
    | Arg.Files _ => true
    | Arg.jsonBody _ => true
    | Arg.formBody _ => true
    | Arg.filesBody _ => true
    | _ => false

/-- The name `%T` prints for the argument. -/
def Arg.typeName : Arg → String
  | Arg.nil => "<nil>"
  | Arg.Headers _ => "requesto.Headers"
  | Arg.requestHeaders _ => "requesto.requestHeaders"
  | Arg.queryParams _ => "requesto.queryParams"
  | Arg.Params _ => "requesto.Params"
  | Arg.FormData _ => "requesto.FormData"
  | Arg.Files _ => "requesto.Files"
  | Arg.jsonBody _ => "requesto.jsonBody"
  | Arg.formBody _ => "requesto.formBody"
  | Arg.filesBody _ => "requesto.filesBody"
  | Arg.other t => t

/-- The client that `Get` configures, with whether its `Params` is the nil map: a
nil map reads as the empty map, and an assignment to one of its entries panics.
(`Headers` is never nil there: `NewClient` and `AsHeaders` allocate it.) -/
structure GetState (μ : Type) where
  client : Client μ
  paramsNil : Bool

/-- How the argument loop of `Get` ends: with the client configured, with the error
the `default` case returns, or with a run-time panic. -/
inductive ArgsOutcome (α : Type) where
  | ok (a : α) : ArgsOutcome α
  | error (e : GoError) : ArgsOutcome α
  | panic (msg : String) : ArgsOutcome α

/-- The type switch of `Get` on one argument, cases tried in source order: the
client after it, the error of the `default` case, or the panic of
`maps.Copy(client.Params, v)` when `client.Params` is nil and `v` has an entry. -/
def getArg {μ : Type} (lib : Lib) (st : GetState μ) (arg : Arg) :
    ArgsOutcome (GetState μ) :=
  match arg with
  | Arg.Headers v =>
    ArgsOutcome.ok { st with client := { st.client with
      Headers := v.foldl (fun h kv => headerSet lib.canon h kv.1 kv.2) st.client.Headers } }
  | Arg.requestHeaders data =>
    ArgsOutcome.ok { st with client := { st.client with Headers := data } }
  | Arg.queryParams data =>
    ArgsOutcome.ok { client := { st.client with Params := data.getD [] },
                     paramsNil := data.isNone }
  | Arg.Params v =>
    if st.paramsNil && v.length > 0 then
      ArgsOutcome.panic "assignment to entry in nil map"
    else
      ArgsOutcome.ok { st with client := { st.client with
        Params := mapsCopy st.client.Params v } }
  | a =>
    if a.isBodyCase then ArgsOutcome.ok st
    else
      match a with
      | Arg.nil => ArgsOutcome.ok st
      | _ => ArgsOutcome.error ("unsupported argument type for Get: " ++ a.typeName)

/-- The loop of `Get` over its arguments, stopping at the first error or panic. -/
def getArgs {μ : Type} (lib : Lib) : GetState μ → List Arg → ArgsOutcome (GetState μ)
  | st, [] => ArgsOutcome.ok st
  | st, arg :: rest =>
    match getArg lib st arg with
    | ArgsOutcome.error e => ArgsOutcome.error e
    | ArgsOutcome.panic msg => ArgsOutcome.panic msg
    | ArgsOutcome.ok st1 => getArgs lib st1 rest

/-- The middleware type of a client: requests, the world, and `(*Response, error)`. -/
abbrev ClientMiddleware : Type := Middleware Request World (Except GoError Response)

/-- `Request.Get`: sets the method and sends through the client's chain, whose
terminal call is `do`. -/
def Request.Get (lib : Lib) (c : Client ClientMiddleware) (r : Request) (w : World) :
    Except GoError Response × World :=
  send c.middlewares
    (fun req w1 =>
      match req.do_ lib c w1 with
      | (res, _, w2) => (res, w2))
    { r with method := "GET" } w

/-- `Client.Get`: a new request, sent with `GET`. -/
def Client.Get (lib : Lib) (c : Client ClientMiddleware) (w : World) :
    Except GoError Response × World :=
  (NewRequest).Get lib c w

/-- The top-level `Get`: what it returns and the world after it, or `none` when the
call panics. `NewClient` allocates the `Params` map. -/
def Get (lib : Lib) (url : String) (args : List Arg) (w : World) :
    Option (Except GoError Response × World) :=
  match getArgs lib { client := NewClient ClientMiddleware url, paramsNil := false } args with
  | ArgsOutcome.panic _ => none
  | ArgsOutcome.error e => some (Except.error e, w)
  | ArgsOutcome.ok st => some (st.client.Get lib w)

/-- A Lean string that stands for a Go string: each character is one byte. -/
def IsByteString (s : String) : Prop := ∀ c ∈ s.toList, c.toNat < 256

instance (s : String) : Decidable (IsByteString s) := by
  unfold IsByteString
  infer_instance

instance {κ ν : Type} [DecidableEq κ] (m : GoMap κ ν) : Decidable (MapWF m) := by
  unfold MapWF
  infer_instance

/-! ### Lemmas on maps and headers -/

theorem mapGet_mapSet {κ ν : Type} [DecidableEq κ] (m : GoMap κ ν) (k : κ) (v : ν) (k2 : κ) :
    mapGet (mapSet m k v) k2 = if k = k2 then some v else mapGet m k2 := by
  induction m with
  | nil => simp [mapSet, mapGet]
  | cons a t ih =>
    obtain ⟨k1, v1⟩ := a
    by_cases h1 : k1 = k
    · subst h1
      by_cases h2 : k1 = k2 <;> simp [mapSet, mapGet, h2]
    · by_cases h2 : k1 = k2
      · subst h2
        have : ¬ k = k1 := fun h => h1 h.symm
        simp [mapSet, mapGet, h1, this]
      · simp [mapSet, mapGet, h1, h2, ih]

theorem mapGet_eq_none {κ ν : Type} [DecidableEq κ] (m : GoMap κ ν) (k : κ) :
    mapGet m k = none ↔ k ∉ mapKeys m := by
  induction m with
  | nil => simp [mapGet, mapKeys]
  | cons a t ih =>
    obtain ⟨k1, v1⟩ := a
    by_cases h : k1 = k
    · simp [mapGet, mapKeys, h]
    · have h2 : ¬ k = k1 := fun e => h e.symm
      simp only [mapKeys] at ih
      simp [mapGet, mapKeys, h, h2, ih]

theorem mapGet_of_mem {κ ν : Type} [DecidableEq κ] (m : GoMap κ ν) (k : κ) (v : ν)
    (hwf : MapWF m) (hmem : (k, v) ∈ m) : mapGet m k = some v := by
  induction m with
  | nil => simp at hmem
  | cons a t ih =>
    obtain ⟨k1, v1⟩ := a
    have hnd : k1 ∉ mapKeys t ∧ MapWF t := by
      simpa [MapWF, mapKeys] using hwf
    rcases List.mem_cons.mp hmem with h | h
    · have h1 : k = k1 := congrArg Prod.fst h
      have h2 : v = v1 := congrArg Prod.snd h
      simp [mapGet, h1, h2]
    · have hk : k ∈ mapKeys t := List.mem_map.mpr ⟨(k, v), h, rfl⟩
      have hne : ¬ k1 = k := fun e => hnd.1 (e ▸ hk)
      simp [mapGet, hne, ih hnd.2 h]

theorem mapKeys_mapSet {κ ν : Type} [DecidableEq κ] (m : GoMap κ ν) (k : κ) (v : ν) :
    mapKeys (mapSet m k v) = if k ∈ mapKeys m then mapKeys m else mapKeys m ++ [k] := by
  induction m with
  | nil => simp [mapSet, mapKeys]
  | cons a t ih =>
    obtain ⟨k1, v1⟩ := a
    simp only [mapKeys] at ih
    by_cases h1 : k1 = k
    · subst h1
      simp [mapSet, mapKeys]
    · have h2 : ¬ k = k1 := fun e => h1 e.symm
      by_cases h3 : k ∈ List.map Prod.fst t
      · simp [mapSet, mapKeys, h1, h2, ih, h3]
      · simp [mapSet, mapKeys, h1, h2, ih, h3]

theorem MapWF_mapSet {κ ν : Type} [DecidableEq κ] (m : GoMap κ ν) (k : κ) (v : ν)
    (h : MapWF m) : MapWF (mapSet m k v) := by
  unfold MapWF at *
  rw [mapKeys_mapSet]
  by_cases hk : k ∈ mapKeys m
  · simpa [hk] using h
  · simp only [hk, if_false]
    exact List.Nodup.append h (List.nodup_singleton k) (by simpa using hk)

theorem mapSet_ne_nil {κ ν : Type} [DecidableEq κ] (m : GoMap κ ν) (k : κ) (v : ν) :
    mapSet m k v ≠ [] := by
  cases m with
  | nil => simp [mapSet]
  | cons a t =>
    obtain ⟨k1, v1⟩ := a
    by_cases h : k1 = k <;> simp [mapSet, h]

theorem mapsCopy_eq_nil {κ ν : Type} [DecidableEq κ] (dst src : GoMap κ ν) :
    mapsCopy dst src = [] ↔ dst = [] ∧ src = [] := by
  induction src generalizing dst with
  | nil => simp [mapsCopy]
  | cons a t ih =>
    have h := ih (mapSet dst a.1 a.2)
    simp only [mapsCopy, List.foldl_cons] at h ⊢
    rw [h]
    simp [mapSet_ne_nil]

theorem MapWF_mapsCopy {κ ν : Type} [DecidableEq κ] (dst src : GoMap κ ν)
    (h : MapWF dst) : MapWF (mapsCopy dst src) := by
  induction src generalizing dst with
  | nil => simpa [mapsCopy] using h
  | cons a t ih =>
    simp only [mapsCopy, List.foldl_cons]
    exact ih _ (MapWF_mapSet dst a.1 a.2 h)

theorem mapGet_mapsCopy {κ ν : Type} [DecidableEq κ] (dst src : GoMap κ ν) (k : κ)
    (hsrc : MapWF src) :
    mapGet (mapsCopy dst src) k
      = match mapGet src k with
        | some v => some v
        | none => mapGet dst k := by
  induction src generalizing dst with
  | nil => simp [mapsCopy, mapGet]
  | cons a t ih =>
    obtain ⟨k1, v1⟩ := a
    have hnd : k1 ∉ mapKeys t ∧ MapWF t := by
      simpa [MapWF, mapKeys] using hsrc
    have h := ih (mapSet dst k1 v1) hnd.2
    simp only [mapsCopy, List.foldl_cons] at h ⊢
    rw [h, mapGet_mapSet]
    by_cases hk : k1 = k
    · subst hk
      have : mapGet t k1 = none := (mapGet_eq_none t k1).mpr hnd.1
      simp [mapGet, this]
    · simp [mapGet, hk]

theorem valuesFor_cons (canon : String → String) (k v : String) (t : GoMap String String)
    (K : String) :
    valuesFor canon ((k, v) :: t) K
      = if canon k = K then v :: valuesFor canon t K else valuesFor canon t K := by
  by_cases h : canon k = K <;> simp [valuesFor, List.filter_cons, h]

theorem mapGet_headerFold (canon : String → String) (h : GoMap String String) (K : String) :
    ∀ acc : Header,
      mapGet (h.foldl (fun a kv => headerAdd canon a kv.1 kv.2) acc) K
        = if valuesFor canon h K = [] then mapGet acc K
          else some ((mapGet acc K).getD [] ++ valuesFor canon h K) := by
  induction h with
  | nil => intro acc; simp [valuesFor]
  | cons a t ih =>
    intro acc
    obtain ⟨k, v⟩ := a
    simp only [List.foldl_cons]
    rw [ih, valuesFor_cons]
    simp only [headerAdd, mapGet_mapSet]
    by_cases hk : canon k = K
    · by_cases ht : valuesFor canon t K = []
      · simp [hk, ht]
      · simp [hk, ht]
    · simp [hk]

theorem mapGet_headerOfMap (canon : String → String) (h : GoMap String String) (K : String) :
    mapGet (headerOfMap canon h) K
      = if valuesFor canon h K = [] then none else some (valuesFor canon h K) := by
  unfold headerOfMap
  rw [mapGet_headerFold]
  simp [mapGet]

theorem MapWF_headerOfMap (canon : String → String) (h : GoMap String String) :
    MapWF (headerOfMap canon h) := by
  unfold headerOfMap
  suffices hs : ∀ acc : Header, MapWF acc →
      MapWF (h.foldl (fun a kv => headerAdd canon a kv.1 kv.2) acc) from
    hs [] (by simp [MapWF, mapKeys])
  induction h with
  | nil => intro acc hacc; simpa using hacc
  | cons a t ih =>
    intro acc hacc
    simp only [List.foldl_cons]
    exact ih _ (MapWF_mapSet _ _ _ hacc)

theorem mem_valuesFor (canon : String → String) (h : GoMap String String) (k v : String)
    (hmem : (k, v) ∈ h) : v ∈ valuesFor canon h (canon k) := by
  unfold valuesFor
  exact List.mem_map.mpr ⟨(k, v), List.mem_filter.mpr ⟨hmem, by simp⟩, rfl⟩

theorem valuesFor_eq_nil (canon : String → String) (h : GoMap String String) (K : String)
    (hno : ∀ kv ∈ h, canon kv.1 ≠ K) : valuesFor canon h K = [] := by
  unfold valuesFor
  rw [List.map_eq_nil_iff, List.filter_eq_nil_iff]
  intro kv hkv
  simpa using hno kv hkv

theorem valuesFor_head (canon : String → String) (h : GoMap String String) (k v : String)
    (hmem : (k, v) ∈ h) (huniq : ∀ kv ∈ h, canon kv.1 = canon k → kv.2 = v) :
    ∃ rest, valuesFor canon h (canon k) = v :: rest := by
  have hin := mem_valuesFor canon h k v hmem
  cases hvs : valuesFor canon h (canon k) with
  | nil => rw [hvs] at hin; simp at hin
  | cons a rest =>
    refine ⟨rest, ?_⟩
    have ha : a ∈ valuesFor canon h (canon k) := by rw [hvs]; simp
    unfold valuesFor at ha
    obtain ⟨kv, hkv, rfl⟩ := List.mem_map.mp ha
    have hf := List.mem_filter.mp hkv
    rw [huniq kv hf.1 (by simpa using hf.2)]

/-! ### Lemmas on the chain -/

theorem sendLoop_append {ρ σ α : Type} (pre post : List (Middleware ρ σ α))
    (chain : Next ρ σ α) :
    sendLoop (pre ++ post) pre.length chain = sendLoop pre pre.length chain := by
  suffices h : ∀ n, n ≤ pre.length → ∀ c : Next ρ σ α,
      sendLoop (pre ++ post) n c = sendLoop pre n c from h _ le_rfl chain
  intro n
  induction n with
  | zero => intro _ c; rfl
  | succ i ih =>
    intro hi c
    have hlt : i < pre.length := hi
    have h1 : (pre ++ post).get? i = pre.get? i := by
      simp [List.getElem?_append_left hlt]
    simp only [sendLoop, h1]
    cases pre.get? i with
    | none => rfl
    | some m => exact ih (Nat.le_of_lt hlt) _

theorem sendLoop_eq_nested {ρ σ α : Type} (ms : List (Middleware ρ σ α)) :
    ∀ chain : Next ρ σ α, sendLoop ms ms.length chain = nestedChain ms chain := by
  induction ms using List.reverseRecOn with
  | nil => intro chain; rfl
  | append_singleton pre m ih =>
    intro chain
    have hlen : (pre ++ [m]).length = pre.length + 1 := by simp
    have hget : (pre ++ [m]).get? pre.length = some m := by simp
    rw [hlen]
    simp only [sendLoop, hget]
    rw [sendLoop_append, ih]
    clear ih hlen hget
    induction pre with
    | nil => rfl
    | cons a t iht => simp only [List.cons_append, nestedChain, List.append_eq, iht]

theorem nestedChain_append {ρ σ α : Type} (pre post : List (Middleware ρ σ α))
    (terminal : Next ρ σ α) :
    nestedChain (pre ++ post) terminal = nestedChain pre (nestedChain post terminal) := by
  induction pre with
  | nil => rfl
  | cons a t ih => simp only [List.cons_append, nestedChain, List.append_eq, ih]

theorem nestedChain_tracer {ρ α : Type} (names : List String) (res : α) (r : ρ) :
    ∀ log : List String,
      nestedChain (names.map tracer) (tracedTerminal res) r log
        = (res, log ++ names.map ("before " ++ ·) ++ ["do"]
            ++ names.reverse.map ("after " ++ ·)) := by
  induction names with
  | nil => intro log; simp [nestedChain, tracedTerminal]
  | cons n t ih =>
    intro log
    simp only [List.map_cons, nestedChain, tracer, ih]
    simp [List.append_assoc]

theorem foldl_useMiddlewares {μ : Type} (batches : List (List μ)) :
    ∀ registered : List μ,
      batches.foldl useMiddlewares registered = registered ++ batches.flatten := by
  induction batches with
  | nil => intro registered; simp
  | cons b rest ih =>
    intro registered
    simp only [List.foldl_cons, ih, useMiddlewares, List.flatten_cons, List.append_assoc]

/-- C1. For the middlewares registered on a fresh client by any sequence of `Use`
calls, `ms` being their list in registration order, `send` is the nested chain
`m1 (r, m2 (·, ... do))`; with no middleware it is the terminal call; a middleware
that ignores `next` makes the result independent of every later middleware and of
the terminal call; and tracing middlewares log their `before` entries in
registration order, then the terminal call, then their `after` entries in reverse
registration order. -/
theorem send_is_nested_chain {ρ σ α : Type} (batches : List (List (Middleware ρ σ α)))
    (terminal : Next ρ σ α) (r : ρ) :
    send (batches.foldl useMiddlewares (NewClient (Middleware ρ σ α) "").middlewares)
        terminal r
      = nestedChain batches.flatten terminal r
    ∧ send (NewClient (Middleware ρ σ α) "").middlewares terminal r = terminal r
    ∧ (∀ (pre post post2 : List (Middleware ρ σ α)) (m : Middleware ρ σ α)
        (terminal2 : Next ρ σ α),
        (∀ (q : ρ) (n1 n2 : Next ρ σ α), m q n1 = m q n2) →
        send (useMiddlewares (useMiddlewares pre [m]) post) terminal r
          = send (useMiddlewares (useMiddlewares pre [m]) post2) terminal2 r)
    ∧ (∀ (names : List String) (res : α) (log : List String),
        send (useMiddlewares [] (names.map tracer)) (tracedTerminal res) r log
          = (res, log ++ names.map ("before " ++ ·) ++ ["do"]
              ++ names.reverse.map ("after " ++ ·))) := by
  refine ⟨?_, ?_, ?_, ?_⟩
  · simp only [send, foldl_useMiddlewares, NewClient, List.nil_append, sendLoop_eq_nested]
  · rfl
  · intro pre post post2 m terminal2 hm
    simp only [send, useMiddlewares, sendLoop_eq_nested, nestedChain_append, nestedChain]
    have : (fun req => m req (nestedChain post terminal))
        = (fun req => m req (nestedChain post2 terminal2)) := by
      funext q; exact hm q _ _
    rw [this]
  · intro names res log
    simp only [send, useMiddlewares, List.nil_append, sendLoop_eq_nested]
    exact nestedChain_tracer names res r log

/-! ### Header merge -/

/-- C2. With the client's default headers installed by `Client.SetHeaders hc` and
the request's by `Request.SetHeaders hr`, `buildHeaders` gives, for a key `k` the
request sets (whether or not the client sets it too), exactly the request's values
under the canonical form of `k`, the value `v` of `k` among them, and `Get k`
returns `v` when no other request key shares that canonical form; for a key only
the client sets (no request key has its canonical form) it gives the client's
values, and `Get k` returns the client's value. Header keys are compared by their
canonical form, as `http.Header` does. -/
theorem buildHeaders_request_overrides_client {μ : Type} (lib : Lib) (c : Client μ)
    (r : Request) (hc hr : GoMap String String) (k v : String) (hok : r.err = none) :
    ((k, v) ∈ hr →
        mapGet ((r.SetHeaders lib hr).buildHeaders (c.SetHeaders lib hc)) (lib.canon k)
            = some (valuesFor lib.canon hr (lib.canon k))
          ∧ v ∈ valuesFor lib.canon hr (lib.canon k))
    ∧ ((k, v) ∈ hr → (∀ kv ∈ hr, lib.canon kv.1 = lib.canon k → kv.2 = v) →
        headerGet lib.canon ((r.SetHeaders lib hr).buildHeaders (c.SetHeaders lib hc)) k = v)
    ∧ ((k, v) ∈ hc → (∀ kv ∈ hr, lib.canon kv.1 ≠ lib.canon k) →
        mapGet ((r.SetHeaders lib hr).buildHeaders (c.SetHeaders lib hc)) (lib.canon k)
            = some (valuesFor lib.canon hc (lib.canon k))
          ∧ v ∈ valuesFor lib.canon hc (lib.canon k))
    ∧ ((k, v) ∈ hc → (∀ kv ∈ hr, lib.canon kv.1 ≠ lib.canon k) →
        (∀ kv ∈ hc, lib.canon kv.1 = lib.canon k → kv.2 = v) →
        headerGet lib.canon ((r.SetHeaders lib hr).buildHeaders (c.SetHeaders lib hc)) k = v) := by
  have hmerge : ∀ K : String,
      mapGet ((r.SetHeaders lib hr).buildHeaders (c.SetHeaders lib hc)) K
        = if valuesFor lib.canon hr K = [] then
            (if valuesFor lib.canon hc K = [] then none else some (valuesFor lib.canon hc K))
          else some (valuesFor lib.canon hr K) := by
    intro K
    simp only [Request.SetHeaders, hok, Request.buildHeaders, Client.SetHeaders, headerClone]
    rw [mapGet_mapsCopy _ _ _ (MapWF_headerOfMap _ _), mapGet_headerOfMap, mapGet_headerOfMap]
    by_cases h1 : valuesFor lib.canon hr K = [] <;> simp [h1]
  have hreq : (k, v) ∈ hr → valuesFor lib.canon hr (lib.canon k) ≠ [] := fun hmem hnil => by
    have := mem_valuesFor lib.canon hr k v hmem
    rw [hnil] at this
    simp at this
  have hcli : (k, v) ∈ hc → valuesFor lib.canon hc (lib.canon k) ≠ [] := fun hmem hnil => by
    have := mem_valuesFor lib.canon hc k v hmem
    rw [hnil] at this
    simp at this
  refine ⟨?_, ?_, ?_, ?_⟩
  · intro hmem
    exact ⟨by rw [hmerge, if_neg (hreq hmem)], mem_valuesFor lib.canon hr k v hmem⟩
  · intro hmem huniq
    obtain ⟨rest, hrest⟩ := valuesFor_head lib.canon hr k v hmem huniq
    unfold headerGet
    rw [hmerge, if_neg (hreq hmem), hrest]
  · intro hmem hno
    have hnil := valuesFor_eq_nil lib.canon hr (lib.canon k) hno
    exact ⟨by rw [hmerge, if_pos hnil, if_neg (hcli hmem)], mem_valuesFor lib.canon hc k v hmem⟩
  · intro hmem hno huniq
    have hnil := valuesFor_eq_nil lib.canon hr (lib.canon k) hno
    obtain ⟨rest, hrest⟩ := valuesFor_head lib.canon hc k v hmem huniq
    unfold headerGet
    rw [hmerge, if_pos hnil, if_neg (hcli hmem), hrest]

/-! ### Sticky builder error -/

/-- C8. On a request whose error slot holds `e`, each configuration call returns
the request unchanged (URL, headers, parameters, body fields and error alike;
`SetCookiesFromMap` also leaves the client and its cookie jar unchanged), and
`do` returns the error `e`, leaves the request as it is and leaves the world as it
is: no `Close` call and no request handed to the transport. -/
theorem sticky_error_blocks_configuration {μ : Type} (lib : Lib) (c : Client μ)
    (r : Request) (w : World) (e : GoError) (herr : r.err = some e) :
    (∀ rawURL, r.SetURL lib rawURL = r)
    ∧ (∀ p, r.JoinPath lib c p = r)
    ∧ (∀ params, r.SetParams params = r)
    ∧ (∀ h, r.SetHeaders lib h = r)
    ∧ (∀ data, r.SetJsonData lib data = r)
    ∧ (∀ data, r.SetFormData lib data = r)
    ∧ (∀ data, r.SetBinary lib data = r)
    ∧ (∀ files, r.SetFiles files = r)
    ∧ (∀ cookies, r.SetCookiesFromMap lib c cookies = (c, r))
    ∧ r.do_ lib c w = (Except.error e, r, w) := by
  refine ⟨?_, ?_, ?_, ?_, ?_, ?_, ?_, ?_, ?_, ?_⟩
  · intro rawURL; simp only [Request.SetURL, herr]
  · intro p; simp only [Request.JoinPath, herr]
  · intro params; simp only [Request.SetParams, herr]
  · intro h; simp only [Request.SetHeaders, herr]
  · intro data; simp only [Request.SetJsonData, herr]
  · intro data; simp only [Request.SetFormData, herr]
  · intro data; simp only [Request.SetBinary, herr]
  · intro files; simp only [Request.SetFiles, herr]
  · intro cookies; simp only [Request.SetCookiesFromMap, herr]
  · simp only [Request.do_, herr]

/-! ### Implied content type -/

theorem headerGet_headerSet (canon : String → String) (h : Header) (key value : String) :
    headerGet canon (headerSet canon h key value) key = value := by
  simp [headerGet, headerSet, mapGet_mapSet]

/-- C9 (as amended). On a request without a stored error, `SetJsonData` and
`SetFormData` always leave `Content-Type` at their implied value, whatever the
caller had set before; `SetBinary` alone keeps a `Content-Type` that is already
set, and gives `application/octet-stream` when there is none. -/
theorem setJson_setForm_overwrite_content_type (lib : Lib) (r : Request)
    (hok : r.err = none) :
    (∀ data, headerGet lib.canon (r.SetJsonData lib data).headers "Content-Type"
        = "application/json; charset=utf-8")
    ∧ (∀ data, headerGet lib.canon (r.SetFormData lib data).headers "Content-Type"
        = "application/x-www-form-urlencoded")
    ∧ (∀ data, headerGet lib.canon r.headers "Content-Type" ≠ "" →
        (r.SetBinary lib data).headers = r.headers)
    ∧ (∀ data, headerGet lib.canon r.headers "Content-Type" = "" →
        headerGet lib.canon (r.SetBinary lib data).headers "Content-Type"
          = "application/octet-stream") := by
  refine ⟨?_, ?_, ?_, ?_⟩
  · intro data
    simp only [Request.SetJsonData, hok, headerGet_headerSet]
  · intro data
    simp only [Request.SetFormData, hok, headerGet_headerSet]
  · intro data hset
    simp only [Request.SetBinary, hok, hset, if_false]
  · intro data hunset
    simp only [Request.SetBinary, hok, hunset, if_true, headerGet_headerSet]

/-! ### Body selection and JSON merge -/

theorem mem_mapKeys_mapsCopy {κ ν : Type} [DecidableEq κ] (dst src : GoMap κ ν) (k : κ) :
    k ∈ mapKeys (mapsCopy dst src) ↔ k ∈ mapKeys dst ∨ k ∈ mapKeys src := by
  induction src generalizing dst with
  | nil => simp [mapsCopy, mapKeys]
  | cons a t ih =>
    have h := ih (mapSet dst a.1 a.2)
    simp only [mapsCopy, List.foldl_cons] at h ⊢
    rw [h, mapKeys_mapSet]
    by_cases hk : a.1 ∈ mapKeys dst
    · rw [if_pos hk]
      constructor
      · rintro (h1 | h1)
        · exact Or.inl h1
        · exact Or.inr (by simp only [mapKeys, List.map_cons, List.mem_cons]; exact Or.inr h1)
      · rintro (h1 | h1)
        · exact Or.inl h1
        · simp only [mapKeys, List.map_cons, List.mem_cons] at h1
          rcases h1 with h1 | h1
          · exact Or.inl (h1 ▸ hk)
          · exact Or.inr h1
    · rw [if_neg hk]
      simp only [List.mem_append, List.mem_singleton, mapKeys, List.map_cons, List.mem_cons]
      tauto

theorem finalJsonData_isNil {μ : Type} (c : Client μ) (r : Request) :
    (r.finalJsonData c).isNil = (c.JsonData.isNil && r.jsonData.isNil) := by
  unfold Request.finalJsonData
  cases hc : c.JsonData <;> cases hr : r.jsonData <;> simp [GoAny.isNil, GoAny.asMap]

theorem jsonBody_eq (lib : Lib) (r : Request) (v : GoAny) (w : World) :
    r.jsonBody lib v w
      = (match lib.jsonMarshal v with
        | Except.error e => (Except.error e, w)
        | Except.ok b =>
          (Except.ok (some (Body.bytes b),
            if headerGet lib.canon r.headers "Content-Type" = "" then
              "application/json; charset=utf-8" else ""), w)) := by
  unfold Request.jsonBody
  cases lib.jsonMarshal v <;> rfl

theorem finalJsonData_eq {μ : Type} (c : Client μ) (r : Request) :
    r.finalJsonData c
      = (match c.JsonData, r.jsonData with
        | GoAny.strMap cm, GoAny.strMap rm => GoAny.strMap (mapsCopy (mapsCopy [] cm) rm)
        | cj, GoAny.nil => cj
        | _, rj => rj) := by
  unfold Request.finalJsonData
  cases hc : c.JsonData <;> cases hr : r.jsonData <;> simp [GoAny.isNil, GoAny.asMap]

theorem buildBody_no_files {μ : Type} (lib : Lib) (c : Client μ) (r : Request) (w : World)
    (hcf : c.Files = []) (hrf : r.files = []) :
    r.buildBody lib c w
      = if (if r.bodyBytes.length = 0 then c.BodyBytes else r.bodyBytes).length > 0 then
          (Except.ok (some (Body.bytes
            (if r.bodyBytes.length = 0 then c.BodyBytes else r.bodyBytes)), ""), w)
        else if !(r.finalJsonData c).isNil then r.jsonBody lib (r.finalJsonData c) w
        else if (mapsCopy (mapsCopy [] c.FormData) r.formData).length > 0 then
          r.formBody lib (mapsCopy (mapsCopy [] c.FormData) r.formData) w
        else (Except.ok (none, ""), w) := by
  simp [Request.buildBody, hcf, hrf, mapsCopy]

/-- C3. In `buildBody` with no files and no binary body on either side: when the
client's and the request's JSON values are both of dynamic type `map[string]any`,
the body is `json.Marshal` of the map holding the keys of either, each key of the
request with the request's value and every other key with the client's; when one
of them is not of that type (nil, a map of another type, any other value) and the
request's value is not nil, the body is `json.Marshal` of the request's value
whole; when the request's value is nil and the client's is not, the body is
`json.Marshal` of the client's value. In each case an encoding error is returned
as it is, and the content type is the JSON one unless the request already has a
`Content-Type` header. -/
theorem buildBody_json_merge {μ : Type} (lib : Lib) (c : Client μ) (r : Request)
    (w : World) (hfiles : c.Files = [] ∧ r.files = [])
    (hbin : c.BodyBytes = [] ∧ r.bodyBytes = []) :
    (∀ cm rm, c.JsonData = GoAny.strMap cm → r.jsonData = GoAny.strMap rm →
        r.buildBody lib c w
          = (match lib.jsonMarshal (GoAny.strMap (mapsCopy (mapsCopy [] cm) rm)) with
            | Except.error e => (Except.error e, w)
            | Except.ok b =>
              (Except.ok (some (Body.bytes b),
                if headerGet lib.canon r.headers "Content-Type" = "" then
                  "application/json; charset=utf-8" else ""), w))
        ∧ (∀ k, k ∈ mapKeys (mapsCopy (mapsCopy [] cm) rm) ↔ k ∈ mapKeys cm ∨ k ∈ mapKeys rm)
        ∧ (MapWF cm → MapWF rm → ∀ k,
            mapGet (mapsCopy (mapsCopy [] cm) rm) k
              = match mapGet rm k with
                | some v => some v
                | none => mapGet cm k))
    ∧ (r.jsonData.isNil = false → (c.JsonData.asMap.2 = false ∨ r.jsonData.asMap.2 = false) →
        r.buildBody lib c w
          = (match lib.jsonMarshal r.jsonData with
            | Except.error e => (Except.error e, w)
            | Except.ok b =>
              (Except.ok (some (Body.bytes b),
                if headerGet lib.canon r.headers "Content-Type" = "" then
                  "application/json; charset=utf-8" else ""), w)))
    ∧ (r.jsonData.isNil = true → c.JsonData.isNil = false →
        r.buildBody lib c w
          = (match lib.jsonMarshal c.JsonData with
            | Except.error e => (Except.error e, w)
            | Except.ok b =>
              (Except.ok (some (Body.bytes b),
                if headerGet lib.canon r.headers "Content-Type" = "" then
                  "application/json; charset=utf-8" else ""), w))) := by
  have hb := buildBody_no_files lib c r w hfiles.1 hfiles.2
  simp only [hbin.1, hbin.2, List.length_nil, if_true, gt_iff_lt, lt_self_iff_false,
    if_false] at hb
  refine ⟨?_, ?_, ?_⟩
  · intro cm rm hcm hrm
    refine ⟨?_, ?_, ?_⟩
    · have hfin : r.finalJsonData c = GoAny.strMap (mapsCopy (mapsCopy [] cm) rm) := by
        simp [Request.finalJsonData, hcm, hrm, GoAny.isNil, GoAny.asMap]
      have key : r.buildBody lib c w
          = r.jsonBody lib (GoAny.strMap (mapsCopy (mapsCopy [] cm) rm)) w := by
        rw [hb]
        simp [hfin, GoAny.isNil]
      rw [key, jsonBody_eq]
    · intro k
      rw [mem_mapKeys_mapsCopy, mem_mapKeys_mapsCopy]
      simp [mapKeys]
    · intro hwc hwr k
      rw [mapGet_mapsCopy _ _ _ hwr, mapGet_mapsCopy _ _ _ hwc]
      cases mapGet rm k with
      | some v => rfl
      | none => cases mapGet cm k <;> simp [mapGet]
  · intro hreq hshape
    have hfin : r.finalJsonData c = r.jsonData := by
      unfold Request.finalJsonData
      rcases hshape with h | h <;> simp [h, hreq]
    have key : r.buildBody lib c w = r.jsonBody lib r.jsonData w := by
      rw [hb]
      simp [hfin, hreq]
    rw [key, jsonBody_eq]
  · intro hreq hcli
    have hfin : r.finalJsonData c = c.JsonData := by
      unfold Request.finalJsonData
      simp [hreq]
    have key : r.buildBody lib c w = r.jsonBody lib c.JsonData w := by
      rw [hb]
      simp [hfin, hcli]
    rw [key, jsonBody_eq]

theorem buildMultipartBody_outcome (lib : Lib) (files : GoMap String File)
    (formData : GoMap String String) (w : World) :
    (∃ e, (buildMultipartBody lib files formData w).1 = Except.error e)
    ∨ (∃ fields parts, (buildMultipartBody lib files formData w).1
        = Except.ok (some (Body.multipart lib.boundary fields parts),
            "multipart/form-data; boundary=" ++ lib.boundary)) := by
  unfold buildMultipartBody
  cases h1 : writeFieldsLoop lib formData [] with
  | error e => exact Or.inl ⟨e, rfl⟩
  | ok fields =>
    cases h2 : writeFilesLoop lib files [] [] with
    | mk res deferred =>
      cases res with
      | error e => exact Or.inl ⟨e, rfl⟩
      | ok parts =>
        cases h3 : lib.writerCloseErr with
        | some e => exact Or.inl ⟨e, by simp [h3]⟩
        | none => exact Or.inr ⟨fields, parts, by simp [h3]⟩

/-- C4. `buildBody` picks one encoding by the precedence Files > Binary > JSON >
Form. If the client or the request has a file, the result is that of
`buildMultipartBody` on the merged files and form fields (an error, or a
multipart body with the multipart content type), whatever JSON, binary or form
body is set. Otherwise, if the request's bytes or else the client's are non-empty,
the body is those bytes. Otherwise, if the client's or the request's JSON value
is not nil, the body is `json.Marshal` of the merged JSON value (the union of the
two when both are of type `map[string]any`, else the request's value unless it is
nil, else the client's), an encoding error is returned as it is, and the content
type is the JSON one unless the request already has a `Content-Type` header.
Otherwise, if the client or the request has a form entry, the body is the
url-encoded merged form. Otherwise there is no body and no error. -/
theorem buildBody_precedence {μ : Type} (lib : Lib) (c : Client μ) (r : Request)
    (w : World) :
    ((c.Files ≠ [] ∨ r.files ≠ []) →
        r.buildBody lib c w
            = buildMultipartBody lib (mapsCopy (mapsCopy [] c.Files) r.files)
                (mapsCopy (mapsCopy [] c.FormData) r.formData) w
          ∧ ((∃ e, (r.buildBody lib c w).1 = Except.error e)
            ∨ (∃ fields parts, (r.buildBody lib c w).1
                = Except.ok (some (Body.multipart lib.boundary fields parts),
                    "multipart/form-data; boundary=" ++ lib.boundary))))
    ∧ (c.Files = [] → r.files = [] → (r.bodyBytes ≠ [] ∨ c.BodyBytes ≠ []) →
        r.buildBody lib c w
          = (Except.ok (some (Body.bytes
              (if r.bodyBytes = [] then c.BodyBytes else r.bodyBytes)), ""), w))
    ∧ (c.Files = [] → r.files = [] → r.bodyBytes = [] → c.BodyBytes = [] →
        (c.JsonData.isNil = false ∨ r.jsonData.isNil = false) →
        r.buildBody lib c w
          = (match lib.jsonMarshal
                (match c.JsonData, r.jsonData with
                | GoAny.strMap cm, GoAny.strMap rm =>
                  GoAny.strMap (mapsCopy (mapsCopy [] cm) rm)
                | cj, GoAny.nil => cj
                | _, rj => rj) with
            | Except.error e => (Except.error e, w)
            | Except.ok b =>
              (Except.ok (some (Body.bytes b),
                if headerGet lib.canon r.headers "Content-Type" = "" then
                  "application/json; charset=utf-8" else ""), w)))
    ∧ (c.Files = [] → r.files = [] → r.bodyBytes = [] → c.BodyBytes = [] →
        c.JsonData.isNil = true → r.jsonData.isNil = true →
        (c.FormData ≠ [] ∨ r.formData ≠ []) →
        r.buildBody lib c w
          = (Except.ok (some (Body.text (lib.valuesEncode
                (valuesSetAll [] (mapsCopy (mapsCopy [] c.FormData) r.formData)))),
              if headerGet lib.canon r.headers "Content-Type" = "" then
                "application/x-www-form-urlencoded" else ""), w))
    ∧ (c.Files = [] → r.files = [] → r.bodyBytes = [] → c.BodyBytes = [] →
        c.JsonData.isNil = true → r.jsonData.isNil = true →
        c.FormData = [] → r.formData = [] →
        r.buildBody lib c w = (Except.ok (none, ""), w)) := by
  refine ⟨?_, ?_, ?_, ?_, ?_⟩
  · intro hf
    have hne : mapsCopy (mapsCopy [] c.Files) r.files ≠ [] := by
      intro h
      rw [mapsCopy_eq_nil, mapsCopy_eq_nil] at h
      rcases hf with h1 | h1
      · exact h1 h.1.2
      · exact h1 h.2
    have hlen : (mapsCopy (mapsCopy [] c.Files) r.files).length > 0 :=
      List.length_pos.mpr hne
    have heq : r.buildBody lib c w
        = buildMultipartBody lib (mapsCopy (mapsCopy [] c.Files) r.files)
            (mapsCopy (mapsCopy [] c.FormData) r.formData) w := by
      simp only [Request.buildBody, hlen, if_true]
    refine ⟨heq, ?_⟩
    rw [heq]
    exact buildMultipartBody_outcome lib _ _ w
  · intro hcf hrf hb
    rw [buildBody_no_files lib c r w hcf hrf]
    by_cases h1 : r.bodyBytes = []
    · have h2 : c.BodyBytes ≠ [] := by
        rcases hb with h | h
        · exact absurd h1 h
        · exact h
      simp [h1, List.length_pos.mpr h2]
    · simp [h1, List.length_pos.mpr h1]
  · intro hcf hrf hrb hcb hj
    have hn : (r.finalJsonData c).isNil = false := by
      rw [finalJsonData_isNil]
      rcases hj with h | h <;> simp [h]
    have key : r.buildBody lib c w = r.jsonBody lib (r.finalJsonData c) w := by
      rw [buildBody_no_files lib c r w hcf hrf]
      simp [hrb, hcb, hn]
    rw [key, jsonBody_eq, finalJsonData_eq]
  · intro hcf hrf hrb hcb hcj hrj hform
    rw [buildBody_no_files lib c r w hcf hrf]
    have hn : (r.finalJsonData c).isNil = true := by
      rw [finalJsonData_isNil]; simp [hcj, hrj]
    have hne : mapsCopy (mapsCopy [] c.FormData) r.formData ≠ [] := by
      intro h
      rw [mapsCopy_eq_nil, mapsCopy_eq_nil] at h
      rcases hform with h1 | h1
      · exact h1 h.1.2
      · exact h1 h.2
    simp [hrb, hcb, hn, List.length_pos.mpr hne, Request.formBody]
  · intro hcf hrf hrb hcb hcj hrj hcform hrform
    rw [buildBody_no_files lib c r w hcf hrf]
    have hn : (r.finalJsonData c).isNil = true := by
      rw [finalJsonData_isNil]; simp [hcj, hrj]
    simp [hrb, hcb, hn, hcform, hrform, mapsCopy]

/-! ### Path join against the base URL -/

theorem valuesSetAll_nil (q : Values) : valuesSetAll q [] = q := rfl

theorem string_eq_empty_of_toList (s : String) (h : s.toList = []) : s = "" := by
  cases s with
  | mk data =>
    simp only [String.toList] at h
    subst h
    rfl

theorem dot_if_empty_ne_nil (out : List Char) : (if out = [] then ['.'] else out) ≠ [] := by
  by_cases h : out = []
  · simp [h]
  · simp [h]

theorem pathClean_ne_nil (p : List Char) : pathClean p ≠ [] := by
  unfold pathClean
  exact dot_if_empty_ne_nil _

theorem pathJoin_eq_empty (a b : String) (h : pathJoin a b = "") : a = "" := by
  unfold pathJoin at h
  split at h
  · rename_i hab
    exact string_eq_empty_of_toList a hab.1
  · split at h
    · rename_i ha
      exact string_eq_empty_of_toList a ha
    · exfalso
      have h2 := congrArg String.toList h
      simp only [String.toList] at h2
      exact pathClean_ne_nil _ h2

theorem urlString_eq_empty (v : URL) (h : urlString v = "") : v.Path = "" := by
  unfold urlString at h
  have h2 := congrArg String.toList h
  simp only [String.toList] at h2
  simp only [List.append_eq_nil] at h2
  obtain ⟨⟨hbody, _⟩, _⟩ := h2
  split at hbody
  · rename_i hop
    simp only [List.append_eq_nil] at hbody
    exact absurd hbody.2 hop
  · simp only [List.append_eq_nil] at hbody
    exact string_eq_empty_of_toList v.Path hbody.2

/-- C10. On a client whose base URL `B` is set and parses to `u`, for a request
with no URL and no stored error, and a path `p` that is not an absolute URL, with
no query parameter on the client or the request: `JoinPath p` followed by
`buildURL` returns a URL with the scheme and the host of `u` and the path
`path.Join(u.Path, p)` (every other field is that of `u`, the raw query
re-encoded). The two facts about the library it rests on: `URL.String` is empty
only for a URL with an empty path, and `path.Join` is empty only when its first
element is. -/
theorem joinPath_buildURL_joins_base_path {μ : Type} (lib : Lib) (c : Client μ)
    (r : Request) (p : String) (u : URL)
    (herr : r.err = none) (hurl : r.url = none)
    (hbase : c.BaseURL ≠ "") (hparse : lib.urlParse c.BaseURL = Except.ok u)
    (hrel : ∀ v, lib.urlParse p = Except.ok v → v.IsAbs = false)
    (hparams : c.Params = [] ∧ r.params = [])
    (hstring : ∀ v : URL, lib.urlString v = "" → v.Path = "")
    (hjoin : ∀ a b : String, lib.pathJoin a b = "" → a = "") :
    ∃ final : URL,
      ((r.JoinPath lib c p).buildURL lib c).1 = Except.ok final
      ∧ final.Scheme = u.Scheme ∧ final.Host = u.Host
      ∧ final.Path = lib.pathJoin u.Path p
      ∧ final = { u with Path := lib.pathJoin u.Path p,
                         RawQuery := lib.valuesEncode (lib.parseQuery u.RawQuery) } := by
  have hjp : r.JoinPath lib c p
      = { r with url := some { u with Path := lib.pathJoin u.Path p } } := by
    have hrelj : r.joinRelative lib c p
        = { r with url := some { u with Path := lib.pathJoin u.Path p } } := by
      simp only [Request.joinRelative, hurl, hparse]
    unfold Request.JoinPath
    split
    · rename_i e he
      rw [herr] at he
      exact absurd he (by simp)
    · cases hp : lib.urlParse p with
      | error e => exact hrelj
      | ok v =>
        simp only [hrel v hp]
        exact hrelj
  refine ⟨{ u with Path := lib.pathJoin u.Path p,
                   RawQuery := lib.valuesEncode (lib.parseQuery u.RawQuery) }, ?_, rfl, rfl, rfl, rfl⟩
  rw [hjp]
  by_cases hs : lib.urlString { u with Path := lib.pathJoin u.Path p } = ""
  · have h1 : lib.pathJoin u.Path p = "" := hstring _ hs
    have h2 : u.Path = "" := hjoin _ _ h1
    have h3 : ({ u with Path := lib.pathJoin u.Path p } : URL) = u := by
      rw [h1]; cases u; simp_all
    simp only [Request.buildURL, hs, if_true, hbase, if_false, hparse, hparams.1, hparams.2,
      valuesSetAll_nil]
    rw [h1]
    have h4 : ({ u with Path := "" } : URL) = u := by rw [← h1]; exact h3
    rw [← h4]
  · simp only [Request.buildURL, hs, if_false, hparams.1, hparams.2, valuesSetAll_nil]

/-- The scenario of C10: base URL `https://api.example.com`, path `/v1/users`,
evaluated with the reference library. -/
theorem joinPath_buildURL_example :
    (∃ final : URL,
      (((NewRequest).JoinPath refLib (NewClient Unit "https://api.example.com")
          "/v1/users").buildURL refLib (NewClient Unit "https://api.example.com")).1
        = Except.ok final
      ∧ final.Scheme = "https" ∧ final.Host = "api.example.com"
      ∧ final.Path = pathJoin "" "/v1/users"
      ∧ final = { (⟨"https", "", none, "api.example.com", "", "", false, false, "", "", ""⟩ : URL)
          with Path := pathJoin "" "/v1/users", RawQuery := valuesEncode (parseQuery "") })
    ∧ ((((NewRequest).JoinPath refLib (NewClient Unit "https://api.example.com")
          "/v1/users").buildURL refLib (NewClient Unit "https://api.example.com")).1.map
        urlString = Except.ok "https://api.example.com/v1/users") :=
  ⟨joinPath_buildURL_joins_base_path refLib (NewClient Unit "https://api.example.com")
      NewRequest "/v1/users"
      ⟨"https", "", none, "api.example.com", "", "", false, false, "", "", ""⟩
      rfl rfl (by decide) rfl (by intro v hv; cases hv; rfl) ⟨rfl, rfl⟩
      urlString_eq_empty pathJoin_eq_empty,
    rfl⟩

/-! ### Worked examples -/

/-- The example of C2: the client sets `content-type` and `X-Client`, the request
sets `Content-Type` and `X-Req`; the merged `Content-Type` is the request's. -/
theorem buildHeaders_example :
    headerGet refLib.canon
        (((NewRequest).SetHeaders refLib
            [("Content-Type", "application/json"), ("X-Req", "r")]).buildHeaders
          ((NewClient Unit "").SetHeaders refLib
            [("content-type", "text/plain"), ("X-Client", "c")]))
        "Content-Type"
      = "application/json" :=
  (buildHeaders_request_overrides_client refLib (NewClient Unit "") NewRequest
      [("content-type", "text/plain"), ("X-Client", "c")]
      [("Content-Type", "application/json"), ("X-Req", "r")]
      "Content-Type" "application/json" rfl).2.1 (by decide) (by decide)

/-- The example of C3: client default `a: 1, b: 2`, request `b: 3, c: null`, both
of type `map[string]any`; the body is the encoding of `a: 1, b: 3, c: null`. -/
theorem buildBody_json_merge_example :
    ((NewRequest).SetJsonData refLib
        (GoAny.strMap [("b", GoAny.other "3"), ("c", GoAny.nil)])).buildBody refLib
      { NewClient Unit "" with
        JsonData := GoAny.strMap [("a", GoAny.other "1"), ("b", GoAny.other "2")] }
      ⟨[], []⟩
    = (Except.ok (some (Body.bytes
          ((Char.ofNat 123 :: "\"a\":1,\"b\":3,\"c\":null".toList ++ [Char.ofNat 125]).map
            Char.toNat)), ""),
        ⟨[], []⟩) :=
  ((buildBody_json_merge refLib
      { NewClient Unit "" with
        JsonData := GoAny.strMap [("a", GoAny.other "1"), ("b", GoAny.other "2")] }
      ((NewRequest).SetJsonData refLib
        (GoAny.strMap [("b", GoAny.other "3"), ("c", GoAny.nil)]))
      ⟨[], []⟩ ⟨rfl, rfl⟩ ⟨rfl, rfl⟩).1
    [("a", GoAny.other "1"), ("b", GoAny.other "2")]
    [("b", GoAny.other "3"), ("c", GoAny.nil)] rfl rfl).1

/-- The counterexample to C3 as stated: the client default is the
`map[string]string` with the one entry `a: "1"`, the request's value, set with
`SetJsonData`, the `map[string]string` with the one entry `b: "2"`, no files and no
binary body. Both are maps, yet the body is the encoding of the request's map
alone, which is not that of the union: the key `a` of the client is not sent. -/
theorem buildBody_typed_maps_not_merged :
    ((NewRequest).SetJsonData refLib
        (GoAny.typedMap "map[string]string" [("b", GoAny.other "\"2\"")])).buildBody refLib
      { NewClient Unit "" with
        JsonData := GoAny.typedMap "map[string]string" [("a", GoAny.other "\"1\"")] }
      ⟨[], []⟩
    = (Except.ok (some (Body.bytes
          ((Char.ofNat 123 :: "\"b\":\"2\"".toList ++ [Char.ofNat 125]).map Char.toNat)),
          ""),
        ⟨[], []⟩)
    ∧ refLib.jsonMarshal (GoAny.typedMap "map[string]string"
          [("a", GoAny.other "\"1\""), ("b", GoAny.other "\"2\"")])
        = Except.ok ((Char.ofNat 123 :: "\"a\":\"1\",\"b\":\"2\"".toList
            ++ [Char.ofNat 125]).map Char.toNat)
    ∧ (Char.ofNat 123 :: "\"b\":\"2\"".toList ++ [Char.ofNat 125]).map Char.toNat
        ≠ (Char.ofNat 123 :: "\"a\":\"1\",\"b\":\"2\"".toList
            ++ [Char.ofNat 125]).map Char.toNat :=
  ⟨rfl, rfl, by decide⟩

/-- The example of C8: `SetURL` on a URL with a control character stores an error;
`do` then returns that error and touches nothing. -/
theorem sticky_error_example :
    ((NewRequest).SetURL refLib "http://exa\nmple.com").err
        = some "net/url: invalid control character in URL"
    ∧ (((NewRequest).SetURL refLib "http://exa\nmple.com").SetURL refLib
          "http://example.com").url = none
    ∧ ((NewRequest).SetURL refLib "http://exa\nmple.com").do_ refLib
          (NewClient Unit "http://example.com") ⟨[], []⟩
        = (Except.error "net/url: invalid control character in URL",
            (NewRequest).SetURL refLib "http://exa\nmple.com", ⟨[], []⟩) :=
  ⟨rfl,
    by
      rw [(sticky_error_blocks_configuration refLib (NewClient Unit "http://example.com")
        ((NewRequest).SetURL refLib "http://exa\nmple.com") ⟨[], []⟩
        "net/url: invalid control character in URL" rfl).1 "http://example.com"]
      rfl,
    (sticky_error_blocks_configuration refLib (NewClient Unit "http://example.com")
      ((NewRequest).SetURL refLib "http://exa\nmple.com") ⟨[], []⟩
      "net/url: invalid control character in URL" rfl).2.2.2.2.2.2.2.2.2⟩

/-- C9, the claim as stated fails: after `SetHeaders` with `Content-Type:
text/plain`, the header reads `text/plain`, and after `SetJsonData` (or
`SetFormData`) it no longer does. -/
theorem setJsonData_replaces_caller_content_type :
    headerGet refLib.canon
        ((NewRequest).SetHeaders refLib [("Content-Type", "text/plain")]).headers
        "Content-Type" = "text/plain"
    ∧ headerGet refLib.canon
        (((NewRequest).SetHeaders refLib [("Content-Type", "text/plain")]).SetJsonData
          refLib (GoAny.other "1")).headers
        "Content-Type" ≠ "text/plain"
    ∧ headerGet refLib.canon
        (((NewRequest).SetHeaders refLib [("Content-Type", "text/plain")]).SetFormData
          refLib [("a", "b")]).headers
        "Content-Type" ≠ "text/plain" := by
  refine ⟨by decide, by decide, by decide⟩

/-- The example of C9 as amended: after `SetHeaders` with `Content-Type:
text/plain`, `SetJsonData` leaves `application/json; charset=utf-8`. -/
theorem setJsonData_content_type_example :
    headerGet refLib.canon
        (((NewRequest).SetHeaders refLib [("Content-Type", "text/plain")]).SetJsonData
          refLib (GoAny.other "1")).headers
        "Content-Type" = "application/json; charset=utf-8" :=
  (setJson_setForm_overwrite_content_type refLib
    ((NewRequest).SetHeaders refLib [("Content-Type", "text/plain")]) rfl).1 (GoAny.other "1")

/-! ### Retry middleware -/

theorem wrapInt_of_small (x : Int) (h0 : 0 ≤ x) (h1 : x < 9223372036854775808) :
    wrapInt x = x := by
  unfold wrapInt
  omega

theorem retryLoop_all_retry {ρ σ R : Type} (env : RetryEnv σ)
    (retryIf : Option R → Option GoError → Bool) (n : Nat) (retryBackoff : Int)
    (req : ρ) (next : Next ρ σ (Option R × Option GoError))
    (hfit : (n : Int) + 1 < 9223372036854775808)
    (hretry : ∀ s, retryIf (next req s).1.1 (next req s).1.2 = true) :
    ∀ (d j : Nat), j + d = n → ∀ (last : Option R × Option GoError) (s : σ),
      retryLoop env retryIf n retryBackoff ((n : Int) + 1) req next (d + 1) (j : Int) last s
        = next req ((retryRound env retryBackoff req next)^[d] s) := by
  intro d
  induction d with
  | zero =>
    intro j hj last s
    have hjn : j = n := by omega
    subst hjn
    have h1 : (j : Int) < (j : Int) + 1 := by omega
    simp [retryLoop, h1, hretry]
  | succ d ih =>
    intro j hj last s
    have h1 : (j : Int) < (n : Int) + 1 := by omega
    have h2 : ¬ ((j : Int) = (n : Int)) := by omega
    have h3 : wrapInt ((j : Int) + 1) = ((j + 1 : Nat) : Int) := by
      rw [wrapInt_of_small _ (by omega) (by omega)]
      push_cast
      rfl
    rw [retryLoop]
    simp only [h1, if_true, hretry, Bool.not_true, Bool.false_eq_true, if_false, h2, h3]
    rw [ih (j + 1) (by omega)]
    rw [Function.iterate_succ_apply]
    rfl

theorem retryRound_counting {ρ σ R : Type} (env : RetryEnv σ) (retryBackoff : Int) (req : ρ)
    (next : Next ρ σ (Option R × Option GoError)) (d : Nat) (s : σ × Nat) :
    ((retryRound (countingEnv env) retryBackoff req (countingNext next))^[d] s).2 = s.2 + d := by
  induction d generalizing s with
  | zero => rfl
  | succ d ih =>
    rw [Function.iterate_succ_apply, ih]
    simp only [retryRound, countingEnv, countingNext]
    omega

/-- The retry loop within the range of `int`: with `RetryCount = n`, `1 <= n` and
`n + 1` representable, the default retry condition and a `next` that always
returns an error, `next` is invoked exactly `n + 1` times, and the result and the
final world are those of the last invocation, whatever the backoff. -/
theorem retrier_invokes_next_count_plus_one {ρ σ R : Type} (env : RetryEnv σ)
    (policy : RetryPolicy R) (n : Nat) (req : ρ)
    (next : Next ρ σ (Option R × Option GoError)) (s : σ)
    (hn : 1 ≤ n) (hfit : (n : Int) + 1 < 9223372036854775808)
    (hcount : policy.RetryCount = n) (hdefault : policy.RetryIf = none)
    (herr : ∀ s, (next req s).1.2 ≠ none) :
    (NewRetrier (countingEnv env) policy req (countingNext next) (s, 0)).2.2 = n + 1
    ∧ ∃ sLast : σ × Nat, sLast.2 = n
        ∧ NewRetrier (countingEnv env) policy req (countingNext next) (s, 0)
            = countingNext next req sLast := by
  have hpos : ¬ ((n : Int) ≤ 0) := by omega
  have hw : wrapInt ((n : Int) + 1) = (n : Int) + 1 :=
    wrapInt_of_small _ (by omega) hfit
  have hnat : ((n : Int) + 1).toNat = n + 1 := by omega
  have hretry : ∀ t : σ × Nat,
      (fun (_ : Option R) (err : Option GoError) => err.isSome)
        (countingNext next req t).1.1 (countingNext next req t).1.2 = true := by
    intro t
    simp only [countingNext]
    cases h : (next req t.1).1.2 with
    | none => exact absurd h (herr t.1)
    | some e => rfl
  have hrun : NewRetrier (countingEnv env) policy req (countingNext next) (s, 0)
      = countingNext next req
          ((retryRound (countingEnv env)
              (if policy.RetryBackoff ≤ 0 then 1000000000 else policy.RetryBackoff)
              req (countingNext next))^[n] (s, 0)) := by
    simp only [NewRetrier, hdefault, hcount, hpos, if_false, hw, hnat]
    have h := retryLoop_all_retry (countingEnv env)
      (fun (_ : Option R) (err : Option GoError) => err.isSome) n
      (if policy.RetryBackoff ≤ 0 then 1000000000 else policy.RetryBackoff)
      req (countingNext next) hfit hretry n 0 (by omega) (none, none) (s, 0)
    simpa using h
  have hcnt := retryRound_counting env
    (if policy.RetryBackoff ≤ 0 then 1000000000 else policy.RetryBackoff) req next n (s, 0)
  refine ⟨?_, _, ?_, hrun⟩
  · rw [hrun]
    simp only [countingNext, hcnt]
    omega
  · rw [hcnt]; omega

/-- C7, at the largest `int`. With `RetryCount = math.MaxInt` the bound
`RetryCount+1` of the loop wraps around to the smallest `int`, the loop body never
runs, `next` is not invoked at all and the middleware returns `(nil, nil)`. -/
theorem retrier_maxInt_never_invokes_next {ρ σ R : Type} (env : RetryEnv σ)
    (backoff : Int) (req : ρ) (next : Next ρ σ (Option R × Option GoError)) (s : σ) :
    NewRetrier (countingEnv env)
        { RetryCount := maxInt, RetryBackoff := backoff, RetryIf := none } req
        (countingNext next) (s, 0)
      = ((none, none), (s, 0)) := by
  have h : (wrapInt (maxInt + 1)).toNat = 0 := by decide
  simp only [NewRetrier, h, retryLoop]

/-! ### Concurrency manager -/

theorem heldIDs_cons (w : WorkerState) (ws : List WorkerState) :
    heldIDs (w :: ws) = heldID w ++ heldIDs ws := by
  simp [heldIDs]

theorem count_heldIDs_set (x : String) (w2 : WorkerState) :
    ∀ (ws : List WorkerState) (i : Nat) (w : WorkerState), ws[i]? = some w →
      (heldIDs (ws.set i w2)).count x + (heldID w).count x
        = (heldIDs ws).count x + (heldID w2).count x := by
  intro ws
  induction ws with
  | nil => intro i w h; simp at h
  | cons a t ih =>
    intro i w h
    cases i with
    | zero =>
      simp only [List.getElem?_cons_zero, Option.some.injEq] at h
      subst h
      simp only [List.set_cons_zero, heldIDs_cons, List.count_append]
      omega
    | succ j =>
      simp only [List.getElem?_cons_succ] at h
      have := ih j w h
      simp only [List.set_cons_succ, heldIDs_cons, List.count_append]
      omega

theorem weight_set (w2 : WorkerState) :
    ∀ (ws : List WorkerState) (i : Nat) (w : WorkerState), ws[i]? = some w →
      ((ws.set i w2).map workerWeight).sum + workerWeight w
        = (ws.map workerWeight).sum + workerWeight w2 := by
  intro ws
  induction ws with
  | nil => intro i w h; simp at h
  | cons a t ih =>
    intro i w h
    cases i with
    | zero =>
      simp only [List.getElem?_cons_zero, Option.some.injEq] at h
      subst h
      simp only [List.set_cons_zero, List.map_cons, List.sum_cons]
      omega
    | succ j =>
      simp only [List.getElem?_cons_succ] at h
      have := ih j w h
      simp only [List.set_cons_succ, List.map_cons, List.sum_cons]
      omega

theorem heldIDs_of_all_exited :
    ∀ ws : List WorkerState, ws.all WorkerState.isExited = true → heldIDs ws = [] := by
  intro ws
  induction ws with
  | nil => intro _; rfl
  | cons a t ih =>
    intro h
    simp only [List.all_cons, Bool.and_eq_true] at h
    rw [heldIDs_cons, ih h.2]
    cases a <;> simp_all [WorkerState.isExited, heldID]

theorem exited_mem_of_all_exited :
    ∀ ws : List WorkerState, 1 ≤ ws.length → ws.all WorkerState.isExited = true →
      WorkerState.exited ∈ ws := by
  intro ws hlen h
  cases ws with
  | nil => simp at hlen
  | cons a t =>
    simp only [List.all_cons, Bool.and_eq_true] at h
    cases a <;> simp_all [WorkerState.isExited]

theorem not_exited_index :
    ∀ ws : List WorkerState, ws.all WorkerState.isExited = true
      ∨ ∃ (i : Nat) (w : WorkerState), ws[i]? = some w ∧ w.isExited = false := by
  intro ws
  induction ws with
  | nil => exact Or.inl rfl
  | cons a t ih =>
    cases ha : a.isExited with
    | false => exact Or.inr ⟨0, a, List.getElem?_cons_zero, ha⟩
    | true =>
      rcases ih with h | ⟨i, w, hi, hw⟩
      · exact Or.inl (by simp [ha, h])
      · exact Or.inr ⟨i + 1, w, by rw [List.getElem?_cons_succ]; exact hi, hw⟩

theorem mem_set_exited (ws : List WorkerState) (i : Nat) (w2 : WorkerState)
    (hw2 : w2.isExited = false) (h : WorkerState.exited ∈ ws.set i w2) :
    WorkerState.exited ∈ ws := by
  rcases List.mem_or_eq_of_mem_set h with h1 | h1
  · exact h1
  · rw [← h1] at hw2
    simp [WorkerState.isExited] at hw2

/-! Inversion of `step`, one lemma per action. -/

theorem step_returned_none (a : Action) (s s1 : RunState) (h : step a s = some s1) :
    s.returned = none := by
  unfold step at h
  split at h
  · simp at h
  · assumption

theorem step_push_inv (s s1 : RunState) (h : step Action.push s = some s1) :
    ∃ t rest, s.pending = t :: rest
      ∧ s1 = { s with pending := rest, tasksCh := s.tasksCh ++ [t] } := by
  have hr := step_returned_none _ _ _ h
  simp only [step, hr] at h
  split at h
  · simp at h
  · rename_i t rest hp
    exact ⟨t, rest, hp, by simpa [hr] using h.symm⟩

theorem step_close_inv (s s1 : RunState) (h : step Action.close s = some s1) :
    s.pending = [] ∧ s.closed = false ∧ s1 = { s with closed := true } := by
  have hr := step_returned_none _ _ _ h
  simp only [step, hr] at h
  split at h
  · rename_i hp hc
    exact ⟨hp, hc, by simpa [hr] using h.symm⟩
  · simp at h

theorem step_recv_inv (i : Nat) (s s1 : RunState) (h : step (Action.recv i) s = some s1) :
    ∃ t q, s.workers[i]? = some WorkerState.waiting ∧ s.tasksCh = t :: q
      ∧ s1 = { s with workers := s.workers.set i (WorkerState.holding t), tasksCh := q } := by
  have hr := step_returned_none _ _ _ h
  simp only [step, hr] at h
  split at h
  · rename_i t q hw hq
    exact ⟨t, q, hw, hq, by simpa [hr] using h.symm⟩
  · simp at h

theorem step_exit_inv (i : Nat) (s s1 : RunState) (h : step (Action.exit i) s = some s1) :
    s.workers[i]? = some WorkerState.waiting ∧ s.tasksCh = [] ∧ s.closed = true
      ∧ s1 = { s with workers := s.workers.set i WorkerState.exited } := by
  have hr := step_returned_none _ _ _ h
  simp only [step, hr] at h
  split at h
  · rename_i hw hq hc
    exact ⟨hw, hq, hc, by simpa [hr] using h.symm⟩
  · simp at h

theorem step_work_inv (i : Nat) (resp : Option Response) (err : Option GoError)
    (s s1 : RunState) (h : step (Action.work i resp err) s = some s1) :
    ∃ t, s.workers[i]? = some (WorkerState.holding t)
      ∧ ((∃ e, s.ctxErr = some e
            ∧ s1 = { s with
                workers := s.workers.set i WorkerState.waiting
                resultsCh := s.resultsCh ++ [{ TaskID := t.ID, Response := none, Error := some e }] })
        ∨ (s.ctxErr = none
            ∧ s1 = { s with
                workers := s.workers.set i WorkerState.waiting
                gets := s.gets ++ [t.ID]
                resultsCh := s.resultsCh ++ [{ TaskID := t.ID, Response := resp, Error := err }] })) := by
  have hr := step_returned_none _ _ _ h
  simp only [step, hr] at h
  split at h
  · rename_i t hw
    refine ⟨t, hw, ?_⟩
    split at h
    · rename_i e he
      exact Or.inl ⟨e, he, by simpa [hr] using h.symm⟩
    · rename_i he
      exact Or.inr ⟨he, by simpa [hr] using h.symm⟩
  · simp at h

theorem step_cancel_inv (e : GoError) (s s1 : RunState)
    (h : step (Action.cancel e) s = some s1) :
    s.ctxErr = none ∧ s1 = { s with ctxErr := some e } := by
  have hr := step_returned_none _ _ _ h
  simp only [step, hr] at h
  split at h
  · rename_i he
    exact ⟨he, by simpa [hr] using h.symm⟩
  · simp at h

theorem step_finish_inv (s s1 : RunState) (h : step Action.finish s = some s1) :
    s.closed = true ∧ s.workers.all WorkerState.isExited = true
      ∧ s1 = { s with returned := some s.resultsCh } := by
  have hr := step_returned_none _ _ _ h
  simp only [step, hr] at h
  split at h
  · rename_i hfin
    exact ⟨hfin.1, hfin.2, by simpa [hr] using h.symm⟩
  · simp at h

theorem initRun_inv (tasks : List Task) (poolSize : Nat) (ctxErr : Option GoError) :
    RunInv tasks poolSize (initRun tasks poolSize ctxErr) := by
  refine ⟨?_, ?_, ?_, ?_, ?_⟩
  · intro x
    have h : ∀ n : Nat, heldIDs (List.replicate n WorkerState.waiting) = [] := by
      intro n
      induction n with
      | zero => rfl
      | succ n ih => rw [List.replicate_succ, heldIDs_cons, ih]; rfl
    simp [initRun, h]
  · intro h; simp [initRun] at h
  · intro h
    simp only [initRun] at h
    have := List.eq_of_mem_replicate h
    simp at this
  · simp [initRun]
  · intro rs h; simp [initRun] at h

theorem step_inv (tasks : List Task) (poolSize : Nat) (a : Action) (s s1 : RunState)
    (hinv : RunInv tasks poolSize s) (hstep : step a s = some s1) :
    RunInv tasks poolSize s1 := by
  obtain ⟨hids, hcp, hex, hsize, hret⟩ := hinv
  have hr := step_returned_none _ _ _ hstep
  cases a with
  | push =>
    obtain ⟨t, rest, hp, rfl⟩ := step_push_inv _ _ hstep
    refine ⟨?_, ?_, ?_, hsize, ?_⟩
    · intro x
      have := hids x
      simp only [hp, List.map_cons, List.map_append, List.map_nil, List.count_append,
        List.count_cons, List.count_nil] at this ⊢
      omega
    · intro hc
      have := hcp hc
      simp [hp] at this
    · intro hmem
      have h1 := hex hmem
      have := hcp h1.1
      simp [hp] at this
    · intro rs h; simp [hr] at h
  | close =>
    obtain ⟨hp, hc, rfl⟩ := step_close_inv _ _ hstep
    refine ⟨hids, fun _ => hp, ?_, hsize, ?_⟩
    · intro hmem
      have h1 := hex hmem
      simp [hc] at h1
    · intro rs h; simp [hr] at h
  | recv i =>
    obtain ⟨t, q, hw, hq, rfl⟩ := step_recv_inv _ _ _ hstep
    refine ⟨?_, hcp, ?_, ?_, ?_⟩
    · intro x
      have h1 := hids x
      have h2 := count_heldIDs_set x (WorkerState.holding t) s.workers i _ hw
      simp only [hq, List.map_cons, List.count_cons, heldID, List.count_nil] at h1 h2 ⊢
      omega
    · intro hmem
      have h1 := hex (mem_set_exited s.workers i (WorkerState.holding t) rfl hmem)
      simp [hq] at h1
    · simpa using hsize
    · intro rs h; simp [hr] at h
  | exit i =>
    obtain ⟨hw, hq, hc, rfl⟩ := step_exit_inv _ _ _ hstep
    refine ⟨?_, hcp, fun _ => ⟨hc, hq⟩, ?_, ?_⟩
    · intro x
      have h1 := hids x
      have h2 := count_heldIDs_set x WorkerState.exited s.workers i _ hw
      simp only [heldID, List.count_nil] at h1 h2 ⊢
      omega
    · simpa using hsize
    · intro rs h; simp [hr] at h
  | work i resp err =>
    obtain ⟨t, hw, hcase⟩ := step_work_inv _ _ _ _ _ hstep
    have h2 : ∀ x, (heldIDs (s.workers.set i WorkerState.waiting)).count x
        + [t.ID].count x = (heldIDs s.workers).count x := by
      intro x
      have := count_heldIDs_set x WorkerState.waiting s.workers i _ hw
      simpa [heldID] using this
    rcases hcase with ⟨e, _, rfl⟩ | ⟨_, rfl⟩
    · refine ⟨?_, hcp, ?_, ?_, ?_⟩
      · intro x
        have h1 := hids x
        have h3 := h2 x
        simp only [List.map_append, List.map_cons, List.map_nil, List.count_append] at h1 ⊢
        omega
      · intro hmem
        exact hex (mem_set_exited s.workers i WorkerState.waiting rfl hmem)
      · simpa using hsize
      · intro rs h; simp [hr] at h
    · refine ⟨?_, hcp, ?_, ?_, ?_⟩
      · intro x
        have h1 := hids x
        have h3 := h2 x
        simp only [List.map_append, List.map_cons, List.map_nil, List.count_append] at h1 ⊢
        omega
      · intro hmem
        exact hex (mem_set_exited s.workers i WorkerState.waiting rfl hmem)
      · simpa using hsize
      · intro rs h; simp [hr] at h
  | cancel e =>
    obtain ⟨_, rfl⟩ := step_cancel_inv _ _ _ hstep
    exact ⟨hids, hcp, hex, hsize, fun rs h => by simp [hr] at h⟩
  | finish =>
    obtain ⟨_, hall, rfl⟩ := step_finish_inv _ _ hstep
    refine ⟨hids, hcp, hex, hsize, ?_⟩
    intro rs h
    simp only [Option.some.injEq] at h
    exact ⟨h.symm, hall⟩

theorem step_movesLeft (a : Action) (s s1 : RunState) (hstep : step a s = some s1) :
    movesLeft s1 < movesLeft s := by
  have hr := step_returned_none _ _ _ hstep
  cases a with
  | push =>
    obtain ⟨t, rest, hp, rfl⟩ := step_push_inv _ _ hstep
    simp only [movesLeft, hp, List.length_cons, List.length_append, List.length_nil]
    omega
  | close =>
    obtain ⟨hp, hc, rfl⟩ := step_close_inv _ _ hstep
    simp only [movesLeft, hc]
    simp
  | recv i =>
    obtain ⟨t, q, hw, hq, rfl⟩ := step_recv_inv _ _ _ hstep
    have h2 := weight_set (WorkerState.holding t) s.workers i _ hw
    simp only [movesLeft, hq, List.length_cons, workerWeight] at h2 ⊢
    omega
  | exit i =>
    obtain ⟨hw, hq, hc, rfl⟩ := step_exit_inv _ _ _ hstep
    have h2 := weight_set WorkerState.exited s.workers i _ hw
    simp only [movesLeft, workerWeight] at h2 ⊢
    omega
  | work i resp err =>
    obtain ⟨t, hw, hcase⟩ := step_work_inv _ _ _ _ _ hstep
    have h2 := weight_set WorkerState.waiting s.workers i _ hw
    rcases hcase with ⟨e, _, rfl⟩ | ⟨_, rfl⟩
    · simp only [movesLeft, workerWeight] at h2 ⊢
      omega
    · simp only [movesLeft, workerWeight] at h2 ⊢
      omega
  | cancel e =>
    obtain ⟨hctx, rfl⟩ := step_cancel_inv _ _ _ hstep
    simp only [movesLeft, hctx]
    simp
  | finish =>
    obtain ⟨_, _, rfl⟩ := step_finish_inv _ _ hstep
    simp only [movesLeft, hr]
    simp

theorem runActions_inv (tasks : List Task) (poolSize : Nat) :
    ∀ (acts : List Action) (s s1 : RunState), RunInv tasks poolSize s →
      runActions acts s = some s1 → RunInv tasks poolSize s1 := by
  intro acts
  induction acts with
  | nil =>
    intro s s1 hinv h
    simp only [runActions, Option.some.injEq] at h
    exact h ▸ hinv
  | cons a rest ih =>
    intro s s1 hinv h
    simp only [runActions] at h
    cases hs : step a s with
    | none => simp [hs] at h
    | some s2 =>
      simp only [hs] at h
      exact ih s2 s1 (step_inv tasks poolSize a s s2 hinv hs) h

theorem runActions_movesLeft :
    ∀ (acts : List Action) (s s1 : RunState), runActions acts s = some s1 →
      acts.length + movesLeft s1 ≤ movesLeft s := by
  intro acts
  induction acts with
  | nil =>
    intro s s1 h
    simp only [runActions, Option.some.injEq] at h
    subst h
    simp
  | cons a rest ih =>
    intro s s1 h
    simp only [runActions] at h
    cases hs : step a s with
    | none => simp [hs] at h
    | some s2 =>
      simp only [hs] at h
      have h1 := ih s2 s1 h
      have h2 := step_movesLeft a s s2 hs
      simp only [List.length_cons]
      omega

theorem step_progress (s : RunState) (hr : s.returned = none) :
    ∃ a, (∀ e, a ≠ Action.cancel e) ∧ (step a s).isSome = true := by
  cases hp : s.pending with
  | cons t rest =>
    exact ⟨Action.push, (fun e h => by cases h), by simp [step, hr, hp]⟩
  | nil =>
    cases hc : s.closed with
    | false =>
      exact ⟨Action.close, (fun e h => by cases h), by simp [step, hr, hp, hc]⟩
    | true =>
      rcases not_exited_index s.workers with hall | ⟨i, w, hi, hw⟩
      · exact ⟨Action.finish, (fun e h => by cases h), by simp [step, hr, hc, hall]⟩
      · cases w with
        | exited => simp [WorkerState.isExited] at hw
        | waiting =>
          cases hq : s.tasksCh with
          | nil =>
            exact ⟨Action.exit i, (fun e h => by cases h), by simp [step, hr, hi, hq, hc]⟩
          | cons t q =>
            exact ⟨Action.recv i, (fun e h => by cases h), by simp [step, hr, hi, hq]⟩
        | holding t =>
          cases hctx : s.ctxErr with
          | none =>
            exact ⟨Action.work i none none, (fun e h => by cases h),
              by simp [step, hr, hi, hctx]⟩
          | some e1 =>
            exact ⟨Action.work i none none, (fun e h => by cases h),
              by simp [step, hr, hi, hctx]⟩

theorem movesLeft_initRun (tasks : List Task) (poolSize : Nat) (ctxErr : Option GoError) :
    movesLeft (initRun tasks poolSize ctxErr) ≤ 4 * tasks.length + poolSize + 3 := by
  have h : ∀ n : Nat, ((List.replicate n WorkerState.waiting).map workerWeight).sum = n := by
    intro n
    induction n with
    | zero => rfl
    | succ n ih =>
      rw [List.replicate_succ, List.map_cons, List.sum_cons, ih]
      simp only [workerWeight]
      omega
  simp only [movesLeft, initRun, h, List.length_nil]
  cases ctxErr <;> simp

theorem returned_ids (tasks : List Task) (poolSize : Nat) (s : RunState) (rs : List Result)
    (hpool : 1 ≤ poolSize) (hinv : RunInv tasks poolSize s) (hret : s.returned = some rs) :
    (rs.map Result.TaskID).Perm (tasks.map Task.ID) := by
  obtain ⟨hrs, hall⟩ := hinv.ret rs hret
  have hmem := exited_mem_of_all_exited s.workers (by rw [hinv.size]; exact hpool) hall
  obtain ⟨hc, hq⟩ := hinv.exitedDone hmem
  have hp := hinv.closedPending hc
  have hheld := heldIDs_of_all_exited s.workers hall
  rw [List.perm_iff_count]
  intro x
  have := hinv.ids x
  simp only [hp, hq, hheld, List.map_nil, List.count_nil] at this
  rw [hrs]
  omega

theorem channels_within_capacity (tasks : List Task) (poolSize : Nat) (s : RunState)
    (hinv : RunInv tasks poolSize s) :
    s.tasksCh.length + s.resultsCh.length ≤ tasks.length := by
  have hperm : (s.pending.map Task.ID ++ s.tasksCh.map Task.ID ++ heldIDs s.workers
      ++ s.resultsCh.map Result.TaskID).Perm (tasks.map Task.ID) := by
    rw [List.perm_iff_count]
    intro x
    have := hinv.ids x
    simp only [List.count_append]
    omega
  have hlen := hperm.length_eq
  simp only [List.length_append, List.length_map] at hlen
  omega

/-- C5. For every task list, every pool size `P >= 1` and every interleaving of
the main goroutine and the workers, each call of `Request.Get` returning: when
`Run` has returned, the slice it returned has as many results as there are tasks
and the multiset of their `TaskID`s is the multiset of the task IDs; as long as
`Run` has not returned some goroutine can move (there is no deadlock); no
interleaving is longer than `4 * N + P + 3` moves, so `Run` returns; and the two
channels never hold more than `N` elements together, so no send blocks. -/
theorem run_returns_one_result_per_task (tasks : List Task) (poolSize : Nat)
    (ctxErr : Option GoError) (hpool : 1 ≤ poolSize) :
    (∀ acts rs, runResult tasks poolSize ctxErr acts = some rs →
        rs.length = tasks.length
        ∧ ((rs.map Result.TaskID : List String) : Multiset String)
            = ((tasks.map Task.ID : List String) : Multiset String))
    ∧ (∀ acts s, runActions acts (initRun tasks poolSize ctxErr) = some s →
        s.returned = none → ∃ a, (∀ e, a ≠ Action.cancel e) ∧ (step a s).isSome = true)
    ∧ (∀ acts s, runActions acts (initRun tasks poolSize ctxErr) = some s →
        acts.length ≤ 4 * tasks.length + poolSize + 3)
    ∧ (∀ acts s, runActions acts (initRun tasks poolSize ctxErr) = some s →
        s.tasksCh.length + s.resultsCh.length ≤ tasks.length) := by
  refine ⟨?_, ?_, ?_, ?_⟩
  · intro acts rs h
    unfold runResult at h
    cases hrun : runActions acts (initRun tasks poolSize ctxErr) with
    | none => simp [hrun] at h
    | some s =>
      simp only [hrun] at h
      have hinv := runActions_inv tasks poolSize acts _ s (initRun_inv tasks poolSize ctxErr) hrun
      have hperm := returned_ids tasks poolSize s rs hpool hinv h
      refine ⟨?_, Multiset.coe_eq_coe.mpr hperm⟩
      have := hperm.length_eq
      simpa using this
  · intro acts s _ hr
    exact step_progress s hr
  · intro acts s hrun
    have h1 := runActions_movesLeft acts _ s hrun
    have h2 := movesLeft_initRun tasks poolSize ctxErr
    omega
  · intro acts s hrun
    exact channels_within_capacity tasks poolSize s
      (runActions_inv tasks poolSize acts _ s (initRun_inv tasks poolSize ctxErr) hrun)

theorem step_cancelledInv (e : GoError) (a : Action) (s s1 : RunState)
    (hinv : CancelledInv e s) (hstep : step a s = some s1) : CancelledInv e s1 := by
  obtain ⟨hctx, hget, hres⟩ := hinv
  cases a with
  | push =>
    obtain ⟨t, rest, hp, rfl⟩ := step_push_inv _ _ hstep
    exact ⟨hctx, hget, hres⟩
  | close =>
    obtain ⟨hp, hc, rfl⟩ := step_close_inv _ _ hstep
    exact ⟨hctx, hget, hres⟩
  | recv i =>
    obtain ⟨t, q, hw, hq, rfl⟩ := step_recv_inv _ _ _ hstep
    exact ⟨hctx, hget, hres⟩
  | exit i =>
    obtain ⟨hw, hq, hc, rfl⟩ := step_exit_inv _ _ _ hstep
    exact ⟨hctx, hget, hres⟩
  | work i resp err =>
    obtain ⟨t, hw, hcase⟩ := step_work_inv _ _ _ _ _ hstep
    rcases hcase with ⟨e1, he1, rfl⟩ | ⟨hnone, rfl⟩
    · refine ⟨hctx, hget, ?_⟩
      intro r hr
      rcases List.mem_append.mp hr with h | h
      · exact hres r h
      · simp only [List.mem_singleton] at h
        subst h
        rw [hctx] at he1
        simp only [Option.some.injEq] at he1
        exact ⟨rfl, by rw [he1]⟩
    · rw [hctx] at hnone
      simp at hnone
  | cancel e1 =>
    obtain ⟨hnone, rfl⟩ := step_cancel_inv _ _ _ hstep
    rw [hctx] at hnone
    simp at hnone
  | finish =>
    obtain ⟨_, _, rfl⟩ := step_finish_inv _ _ hstep
    exact ⟨hctx, hget, hres⟩

theorem runActions_cancelledInv (e : GoError) :
    ∀ (acts : List Action) (s s1 : RunState), CancelledInv e s →
      runActions acts s = some s1 → CancelledInv e s1 := by
  intro acts
  induction acts with
  | nil =>
    intro s s1 hinv h
    simp only [runActions, Option.some.injEq] at h
    exact h ▸ hinv
  | cons a rest ih =>
    intro s s1 hinv h
    simp only [runActions] at h
    cases hs : step a s with
    | none => simp [hs] at h
    | some s2 =>
      simp only [hs] at h
      exact ih s2 s1 (step_cancelledInv e a s s2 hinv hs) h

/-- C6. When the manager's context is already cancelled, with error `e`, as `Run`
starts, then under every interleaving and at every moment `Request.Get` has been
called for no task and every result sent so far has a nil response, the error `e`
and the ID of one of the tasks; and the slice `Run` returns holds, for each queued
task, one result with the task's ID, a nil response and the error `e`. -/
theorem cancelled_run_sends_no_request (tasks : List Task) (poolSize : Nat) (e : GoError)
    (hpool : 1 ≤ poolSize) :
    (∀ acts s, runActions acts (initRun tasks poolSize (some e)) = some s →
        s.gets = []
        ∧ ∀ r ∈ s.resultsCh, r.Response = none ∧ r.Error = some e
            ∧ ∃ t ∈ tasks, r.TaskID = t.ID)
    ∧ (∀ acts rs, runResult tasks poolSize (some e) acts = some rs →
        (rs : Multiset Result) = ((tasks.map (cancelledResult e) : List Result) : Multiset Result)) := by
  have hinit : CancelledInv e (initRun tasks poolSize (some e)) :=
    ⟨rfl, rfl, fun r hr => by simp [initRun] at hr⟩
  refine ⟨?_, ?_⟩
  · intro acts s hrun
    have hc := runActions_cancelledInv e acts _ s hinit hrun
    have hinv := runActions_inv tasks poolSize acts _ s (initRun_inv tasks poolSize (some e)) hrun
    refine ⟨hc.noGet, ?_⟩
    intro r hr
    refine ⟨(hc.res r hr).1, (hc.res r hr).2, ?_⟩
    have hcount := hinv.ids r.TaskID
    have hpos : 0 < (s.resultsCh.map Result.TaskID).count r.TaskID :=
      List.count_pos_iff.mpr (List.mem_map.mpr ⟨r, hr, rfl⟩)
    have hpos2 : 0 < (tasks.map Task.ID).count r.TaskID := by omega
    obtain ⟨t, ht, hid⟩ := List.mem_map.mp (List.count_pos_iff.mp hpos2)
    exact ⟨t, ht, hid.symm⟩
  · intro acts rs h
    unfold runResult at h
    cases hrun : runActions acts (initRun tasks poolSize (some e)) with
    | none => simp [hrun] at h
    | some s =>
      simp only [hrun] at h
      have hc := runActions_cancelledInv e acts _ s hinit hrun
      have hinv := runActions_inv tasks poolSize acts _ s
        (initRun_inv tasks poolSize (some e)) hrun
      have hperm := returned_ids tasks poolSize s rs hpool hinv h
      have hrs := (hinv.ret rs h).1
      have hshape : rs = (rs.map Result.TaskID).map
          (fun id => ({ TaskID := id, Response := none, Error := some e } : Result)) := by
        rw [List.map_map]
        conv_lhs => rw [← List.map_id rs]
        apply List.map_congr_left
        intro r hr
        have := hc.res r (hrs ▸ hr)
        cases r with
        | mk id resp err =>
          simp only at this
          simp [this.1, this.2]
      have htasks : tasks.map (cancelledResult e) = (tasks.map Task.ID).map
          (fun id => ({ TaskID := id, Response := none, Error := some e } : Result)) := by
        rw [List.map_map]
        rfl
      rw [hshape, htasks]
      exact Multiset.coe_eq_coe.mpr (hperm.map _)

/-- The example of C5: two tasks, two workers, the second task answered first. -/
theorem run_example :
    runResult [⟨"a", NewRequest⟩, ⟨"b", NewRequest⟩] 2 none
        [Action.push, Action.recv 0, Action.push, Action.close, Action.recv 1,
          Action.work 1 none (some "timeout"),
          Action.work 0 (some ⟨⟨200, [], ⟨[], none, none⟩⟩, [], none⟩) none,
          Action.exit 0, Action.exit 1, Action.finish]
      = some [⟨"b", none, some "timeout"⟩,
          ⟨"a", some ⟨⟨200, [], ⟨[], none, none⟩⟩, [], none⟩, none⟩]
    ∧ ([⟨"b", none, some "timeout"⟩,
          ⟨"a", some ⟨⟨200, [], ⟨[], none, none⟩⟩, [], none⟩, none⟩] : List Result).length
        = ([⟨"a", NewRequest⟩, ⟨"b", NewRequest⟩] : List Task).length
    ∧ ((([⟨"b", none, some "timeout"⟩,
          ⟨"a", some ⟨⟨200, [], ⟨[], none, none⟩⟩, [], none⟩, none⟩] : List Result).map
            Result.TaskID : List String) : Multiset String)
        = ((([⟨"a", NewRequest⟩, ⟨"b", NewRequest⟩] : List Task).map Task.ID : List String) :
            Multiset String) :=
  ⟨rfl,
    (run_returns_one_result_per_task [⟨"a", NewRequest⟩, ⟨"b", NewRequest⟩] 2 none
      (by decide)).1
      [Action.push, Action.recv 0, Action.push, Action.close, Action.recv 1,
        Action.work 1 none (some "timeout"),
        Action.work 0 (some ⟨⟨200, [], ⟨[], none, none⟩⟩, [], none⟩) none,
        Action.exit 0, Action.exit 1, Action.finish]
      [⟨"b", none, some "timeout"⟩,
        ⟨"a", some ⟨⟨200, [], ⟨[], none, none⟩⟩, [], none⟩, none⟩]
      rfl⟩

/-- The example of C6: two tasks, one worker, the context cancelled beforehand;
whatever `Request.Get` would have answered, both results carry the context's
error. -/
theorem cancelled_run_example :
    runResult [⟨"a", NewRequest⟩, ⟨"b", NewRequest⟩] 1 (some "context canceled")
        [Action.push, Action.push, Action.close, Action.recv 0,
          Action.work 0 (some ⟨⟨200, [], ⟨[], none, none⟩⟩, [], none⟩) none,
          Action.recv 0, Action.work 0 none (some "timeout"), Action.exit 0, Action.finish]
      = some [⟨"a", none, some "context canceled"⟩, ⟨"b", none, some "context canceled"⟩]
    ∧ (([⟨"a", none, some "context canceled"⟩, ⟨"b", none, some "context canceled"⟩] :
          List Result) : Multiset Result)
        = ((([⟨"a", NewRequest⟩, ⟨"b", NewRequest⟩] : List Task).map
            (cancelledResult "context canceled") : List Result) : Multiset Result) :=
  ⟨rfl,
    (cancelled_run_sends_no_request [⟨"a", NewRequest⟩, ⟨"b", NewRequest⟩] 1
      "context canceled" (by decide)).2
      [Action.push, Action.push, Action.close, Action.recv 0,
        Action.work 0 (some ⟨⟨200, [], ⟨[], none, none⟩⟩, [], none⟩) none,
        Action.recv 0, Action.work 0 none (some "timeout"), Action.exit 0, Action.finish]
      [⟨"a", none, some "context canceled"⟩, ⟨"b", none, some "context canceled"⟩]
      rfl⟩

/-- The scenario of C7: `RetryCount = 2`, backoff 0, a terminal call that always
fails with `boom`: three invocations, and the result is that of the last one. -/
theorem retrier_two_retries_example :
    (NewRetrier (ρ := Unit) (R := Unit)
        (countingEnv { logPrintf := fun _ _ (s : Unit) => s, sleep := fun _ s => s })
        { RetryCount := 2, RetryBackoff := 0, RetryIf := none } ()
        (countingNext (fun _ s => ((none, some "boom"), s))) ((), 0)).2.2 = 2 + 1
    ∧ (NewRetrier (ρ := Unit) (R := Unit)
        (countingEnv { logPrintf := fun _ _ (s : Unit) => s, sleep := fun _ s => s })
        { RetryCount := 2, RetryBackoff := 0, RetryIf := none } ()
        (countingNext (fun _ s => ((none, some "boom"), s))) ((), 0)).1
      = (none, some "boom") :=
  ⟨(retrier_invokes_next_count_plus_one
      { logPrintf := fun _ _ (s : Unit) => s, sleep := fun _ s => s }
      { RetryCount := 2, RetryBackoff := 0, RetryIf := none } 2 ()
      (fun _ s => ((none, some "boom"), s)) () (by decide) (by decide) rfl rfl
      (fun _ => by simp)).1,
    rfl⟩

/-! ### Form round trip -/

theorem upperHex_unhex (d : Nat) (h : d < 16) :
    ishex (upperHex d) = true ∧ unhex (upperHex d) = d := by
  interval_cases d <;> decide

theorem upperHex_clean (d : Nat) :
    upperHex d ≠ '&' ∧ upperHex d ≠ '=' ∧ upperHex d ≠ ';' := by
  unfold upperHex
  split <;> decide

theorem unreserved_clean (c : Char) (h : shouldEscape c = false) :
    c ≠ '&' ∧ c ≠ '=' ∧ c ≠ ';' ∧ c ≠ '%' ∧ c ≠ '+' := by
  refine ⟨?_, ?_, ?_, ?_, ?_⟩ <;> (intro hc; subst hc; revert h; decide)

theorem escapeChars_clean (s : List Char) :
    ∀ c ∈ escapeChars s, c ≠ '&' ∧ c ≠ '=' ∧ c ≠ ';' := by
  induction s with
  | nil => intro c hc; simp [escapeChars] at hc
  | cons a t ih =>
    intro c hc
    unfold escapeChars at hc
    split at hc
    · split at hc
      · rcases List.mem_cons.mp hc with h | h
        · subst h; decide
        · exact ih c h
      · rcases List.mem_cons.mp hc with h | h
        · subst h; decide
        · rcases List.mem_cons.mp h with h | h
          · subst h; exact upperHex_clean _
          · rcases List.mem_cons.mp h with h | h
            · subst h; exact upperHex_clean _
            · exact ih c h
    · rename_i hesc
      rcases List.mem_cons.mp hc with h | h
      · subst h
        have := unreserved_clean c (by simpa using hesc)
        exact ⟨this.1, this.2.1, this.2.2.1⟩
      · exact ih c h

theorem unescapeChars_percent (a b : Char) (t : List Char) :
    unescapeChars ('%' :: a :: b :: t)
      = if ishex a && ishex b then
          match unescapeChars t with
          | Except.ok u => Except.ok (Char.ofNat (16 * unhex a + unhex b) :: u)
          | Except.error e => Except.error e
        else Except.error "invalid URL escape" := by
  conv_lhs => unfold unescapeChars
  simp only [if_true]

theorem unescapeChars_other (c : Char) (t : List Char) (h : c ≠ '%') :
    unescapeChars (c :: t)
      = match unescapeChars t with
        | Except.ok u => Except.ok ((if c = '+' then ' ' else c) :: u)
        | Except.error e => Except.error e := by
  conv_lhs => unfold unescapeChars
  simp only [h, if_false]

theorem unescape_escape (s : List Char) (hb : ∀ c ∈ s, c.toNat < 256) :
    unescapeChars (escapeChars s) = Except.ok s := by
  induction s with
  | nil => rfl
  | cons a t ih =>
    have iht := ih (fun c hc => hb c (List.mem_cons_of_mem a hc))
    have ha : a.toNat < 256 := hb a (List.mem_cons_self a t)
    rw [escapeChars]
    by_cases hesc : shouldEscape a = true
    · by_cases hsp : a = ' '
      · subst hsp
        simp only [hesc, if_true]
        rw [unescapeChars_other _ _ (by decide), iht]
        rfl
      · have h1 := upperHex_unhex (a.toNat / 16 % 16) (Nat.mod_lt _ (by decide))
        have h2 := upperHex_unhex (a.toNat % 16) (Nat.mod_lt _ (by decide))
        have hn : 16 * (a.toNat / 16 % 16) + a.toNat % 16 = a.toNat := by omega
        simp only [hesc, if_true, hsp, if_false]
        rw [unescapeChars_percent, iht, h1.1, h1.2, h2.1, h2.2, hn]
        simp
    · have hc := unreserved_clean a (by simpa using hesc)
      simp only [hesc, Bool.false_eq_true, if_false]
      rw [unescapeChars_other _ _ hc.2.2.2.1, iht]
      simp [hc.2.2.2.2]

theorem cutAt_append (sep : Char) (a b : List Char) (h : sep ∉ a) :
    cutAt sep (a ++ sep :: b) = (a, some b) := by
  induction a with
  | nil => simp [cutAt]
  | cons c t ih =>
    have hc : ¬ c = sep := fun e => h (e ▸ List.mem_cons_self c t)
    have ht : sep ∉ t := fun e => h (List.mem_cons_of_mem c e)
    simp [cutAt, hc, ih ht]

theorem splitAmp_clean (a : List Char) (h : '&' ∉ a) : splitAmp a = [a] := by
  induction a with
  | nil => rfl
  | cons c t ih =>
    have hc : ¬ c = '&' := fun e => h (e ▸ List.mem_cons_self c t)
    have ht : '&' ∉ t := fun e => h (List.mem_cons_of_mem c e)
    simp [splitAmp, hc, ih ht]

theorem splitAmp_append (a b : List Char) (h : '&' ∉ a) :
    splitAmp (a ++ '&' :: b) = a :: splitAmp b := by
  induction a with
  | nil => simp [splitAmp]
  | cons c t ih =>
    have hc : ¬ c = '&' := fun e => h (e ▸ List.mem_cons_self c t)
    have ht : '&' ∉ t := fun e => h (List.mem_cons_of_mem c e)
    simp [splitAmp, hc, ih ht]

theorem splitAmp_joinAmp (ps : List (List Char)) (hne : ps ≠ [])
    (h : ∀ p ∈ ps, '&' ∉ p) : splitAmp (joinAmp ps) = ps := by
  induction ps with
  | nil => exact absurd rfl hne
  | cons a t ih =>
    cases t with
    | nil => exact splitAmp_clean a (h a (List.mem_cons_self a []))
    | cons b t2 =>
      simp only [joinAmp]
      rw [splitAmp_append a _ (h a (List.mem_cons_self a _)),
        ih (by simp) (fun p hp => h p (List.mem_cons_of_mem a hp))]

theorem encodePiece_clean (kv : String × String) :
    '&' ∉ encodePiece kv ∧ ';' ∉ encodePiece kv ∧ encodePiece kv ≠ [] := by
  refine ⟨?_, ?_, ?_⟩
  · intro hmem
    rcases List.mem_append.mp hmem with h | h
    · exact (escapeChars_clean _ _ h).1 rfl
    · rcases List.mem_cons.mp h with h | h
      · exact absurd h (by decide)
      · exact (escapeChars_clean _ _ h).1 rfl
  · intro hmem
    rcases List.mem_append.mp hmem with h | h
    · exact (escapeChars_clean _ _ h).2.2 rfl
    · rcases List.mem_cons.mp h with h | h
      · exact absurd h (by decide)
      · exact (escapeChars_clean _ _ h).2.2 rfl
  · simp [encodePiece]

theorem parseQueryStep_encodePiece (acc : Values × Option GoError) (kv : String × String)
    (hk : IsByteString kv.1) (hv : IsByteString kv.2) :
    parseQueryStep acc (encodePiece kv) = (headerAdd id acc.1 kv.1 kv.2, acc.2) := by
  have hclean := encodePiece_clean kv
  have hsemi : (encodePiece kv).contains ';' = false := by
    simpa using hclean.2.1
  have hcut : cutAt '=' (encodePiece kv)
      = (escapeChars kv.1.toList, some (escapeChars kv.2.toList)) :=
    cutAt_append '=' _ _ (fun h => (escapeChars_clean _ _ h).2.1 rfl)
  unfold parseQueryStep
  simp only [hsemi, Bool.false_eq_true, if_false, hclean.2.2, hcut, Option.getD_some,
    unescape_escape _ hk, unescape_escape _ hv, headerAdd, id]
  rfl

theorem parseQuery_fold_pieces (ps : List (String × String))
    (hb : ∀ kv ∈ ps, IsByteString kv.1 ∧ IsByteString kv.2) :
    ∀ acc : Values × Option GoError,
      (ps.map encodePiece).foldl parseQueryStep acc
        = (ps.foldl (fun q kv => headerAdd id q kv.1 kv.2) acc.1, acc.2) := by
  induction ps with
  | nil => intro acc; rfl
  | cons kv t ih =>
    intro acc
    have h1 := hb kv (List.mem_cons_self kv t)
    simp only [List.map_cons, List.foldl_cons, parseQueryStep_encodePiece acc kv h1.1 h1.2]
    exact ih (fun x hx => hb x (List.mem_cons_of_mem kv hx)) _

theorem parseQueryErr_joined (ps : List (String × String))
    (hb : ∀ kv ∈ ps, IsByteString kv.1 ∧ IsByteString kv.2) :
    parseQueryErr (String.mk (joinAmp (ps.map encodePiece)))
      = (headerOfMap id ps, none) := by
  unfold parseQueryErr headerOfMap
  cases ps with
  | nil => rfl
  | cons kv t =>
    have hsplit : splitAmp (joinAmp ((kv :: t).map encodePiece)) = (kv :: t).map encodePiece :=
      splitAmp_joinAmp _ (by simp) (by
        intro p hp
        obtain ⟨x, _, rfl⟩ := List.mem_map.mp hp
        exact (encodePiece_clean x).1)
    show List.foldl parseQueryStep ([], none) (splitAmp (joinAmp ((kv :: t).map encodePiece))) = _
    rw [hsplit, parseQuery_fold_pieces _ hb]

theorem insertByKey_perm (kv : String × List String) (l : List (String × List String)) :
    (insertByKey kv l).Perm (kv :: l) := by
  induction l with
  | nil => exact List.Perm.refl _
  | cons h t ih =>
    unfold insertByKey
    split
    · exact List.Perm.refl _
    · exact (List.Perm.cons h ih).trans (List.Perm.swap kv h t)

theorem sortByKey_perm (v : Values) :
    ∀ acc : Values, (v.foldl (fun a kv => insertByKey kv a) acc).Perm (v ++ acc) := by
  induction v with
  | nil => intro acc; exact List.Perm.refl _
  | cons kv t ih =>
    intro acc
    simp only [List.foldl_cons, List.cons_append]
    exact (ih _).trans
      ((List.Perm.append_left t (insertByKey_perm kv acc)).trans List.perm_middle)

theorem mapSet_of_not_mem {κ ν : Type} [DecidableEq κ] (q : GoMap κ ν) (k : κ) (v : ν)
    (h : k ∉ mapKeys q) : mapSet q k v = q ++ [(k, v)] := by
  induction q with
  | nil => rfl
  | cons a t ih =>
    obtain ⟨k1, v1⟩ := a
    have h1 : ¬ k1 = k := fun e => h (by simp [mapKeys, e])
    have h2 : k ∉ mapKeys t := fun e => h (by
      simp only [mapKeys, List.map_cons, List.mem_cons]
      exact Or.inr e)
    simp [mapSet, h1, ih h2]

theorem valuesSetAll_of_wf (m : GoMap String String) :
    ∀ q : Values, MapWF m → (∀ k ∈ mapKeys m, k ∉ mapKeys q) →
      valuesSetAll q m = q ++ m.map (fun kv => (kv.1, [kv.2])) := by
  induction m with
  | nil => intro q _ _; simp [valuesSetAll]
  | cons a t ih =>
    intro q hwf hdis
    have hnd : a.1 ∉ mapKeys t ∧ MapWF t := by
      simpa [MapWF, mapKeys] using hwf
    have ha : a.1 ∉ mapKeys q := hdis a.1 (by simp [mapKeys])
    have hstep : valuesSet q a.1 a.2 = q ++ [(a.1, [a.2])] := mapSet_of_not_mem q a.1 [a.2] ha
    have hrec := ih (q ++ [(a.1, [a.2])]) hnd.2 (by
      intro k hk hmem
      simp only [mapKeys, List.map_append, List.map_cons, List.map_nil, List.mem_append,
        List.mem_singleton] at hmem
      rcases hmem with h | h
      · exact hdis k (by
          simp only [mapKeys, List.map_cons, List.mem_cons]
          exact Or.inr hk) h
      · exact hnd.1 (h ▸ hk))
    simp only [valuesSetAll, List.foldl_cons] at hrec ⊢
    rw [hstep, hrec]
    simp

theorem pairsOf_singletons (m : GoMap String String) :
    pairsOf (m.map (fun kv => (kv.1, [kv.2]))) = m := by
  induction m with
  | nil => rfl
  | cons a t ih =>
    simp only [pairsOf, List.map_cons, List.flatMap_cons, List.map_nil] at ih ⊢
    rw [ih]
    rfl

theorem mem_of_mapGet {κ ν : Type} [DecidableEq κ] (m : GoMap κ ν) (k : κ) (v : ν)
    (h : mapGet m k = some v) : (k, v) ∈ m := by
  induction m with
  | nil => simp [mapGet] at h
  | cons a t ih =>
    obtain ⟨k1, v1⟩ := a
    by_cases hk : k1 = k
    · simp only [mapGet, hk, if_true, Option.some.injEq] at h
      simp [hk, h]
    · simp only [mapGet, hk, if_false] at h
      exact List.mem_cons_of_mem _ (ih h)

theorem mapGet_perm {κ ν : Type} [DecidableEq κ] (p m : GoMap κ ν) (k : κ)
    (hperm : p.Perm m) (hwf : MapWF m) : mapGet p k = mapGet m k := by
  have hkeys : (mapKeys p).Perm (mapKeys m) := hperm.map Prod.fst
  have hwfp : MapWF p := (List.Perm.nodup_iff hkeys).mpr hwf
  cases hm : mapGet m k with
  | none =>
    rw [mapGet_eq_none] at hm ⊢
    exact fun h => hm (hkeys.mem_iff.mp h)
  | some v =>
    exact mapGet_of_mem p k v hwfp (hperm.mem_iff.mpr (mem_of_mapGet m k v hm))

theorem valuesFor_id_of_wf (p : GoMap String String) (k : String) (hwf : MapWF p) :
    valuesFor id p k
      = match mapGet p k with
        | some v => [v]
        | none => [] := by
  induction p with
  | nil => rfl
  | cons a t ih =>
    obtain ⟨k1, v1⟩ := a
    have hnd : k1 ∉ mapKeys t ∧ MapWF t := by
      simpa [MapWF, mapKeys] using hwf
    rw [valuesFor_cons]
    by_cases hk : k1 = k
    · subst hk
      have hnone : mapGet t k1 = none := (mapGet_eq_none t k1).mpr hnd.1
      have ht := ih hnd.2
      simp only [hnone] at ht
      simp [mapGet, ht]
    · simp [mapGet, hk, ih hnd.2]

/-- C14. For every string-to-string map `m` (a Go map of byte strings), the
payload the Form branch of `buildBody` produces for `m`, `Values.Encode` of the
values set from `m`, decodes with `url.ParseQuery` without error to the values in
which every key of `m`, and no other key, has exactly the one value `m` gives it,
whatever bytes the keys and values hold. -/
theorem form_body_round_trip (m : GoMap String String) (r : Request) (w : World)
    (hwf : MapWF m) (hb : ∀ kv ∈ m, IsByteString kv.1 ∧ IsByteString kv.2) :
    ∃ payload contentType,
      r.formBody refLib m w = (Except.ok (some (Body.text payload), contentType), w)
      ∧ (parseQueryErr payload).2 = none
      ∧ ∀ k, mapGet (parseQueryErr payload).1 k = (mapGet m k).map (fun v => [v]) := by
  refine ⟨valuesEncode (valuesSetAll [] m), _, rfl, ?_⟩
  have hvals : valuesSetAll [] m = m.map (fun kv => (kv.1, [kv.2])) := by
    have := valuesSetAll_of_wf m [] hwf (fun k _ h => by simp [mapKeys] at h)
    simpa using this
  have hperm : (pairsOf ((valuesSetAll [] m).foldl (fun a kv => insertByKey kv a) [])).Perm m := by
    have h1 := sortByKey_perm (valuesSetAll [] m) []
    rw [List.append_nil] at h1
    have h2 := List.Perm.flatMap_right (fun kv : String × List String =>
      kv.2.map (fun x => (kv.1, x))) h1
    have h3 := pairsOf_singletons m
    rw [← hvals] at h3
    unfold pairsOf at h3 ⊢
    rw [h3] at h2
    exact h2
  have hbytes : ∀ kv ∈ pairsOf ((valuesSetAll [] m).foldl (fun a kv => insertByKey kv a) []),
      IsByteString kv.1 ∧ IsByteString kv.2 :=
    fun kv hkv => hb kv (hperm.mem_iff.mp hkv)
  have hdec := parseQueryErr_joined _ hbytes
  have hwfp : MapWF (pairsOf ((valuesSetAll [] m).foldl (fun a kv => insertByKey kv a) [])) :=
    (List.Perm.nodup_iff (hperm.map Prod.fst)).mpr hwf
  unfold valuesEncode
  simp only [hdec, true_and]
  intro k
  rw [mapGet_headerOfMap, valuesFor_id_of_wf _ k hwfp, mapGet_perm _ m k hperm hwf]
  cases mapGet m k <;> simp

/-- The example of C14: a map whose keys and values hold `&`, `=`, `+`, `%`, a
space and a byte above 127. -/
theorem form_body_round_trip_example :
    ∃ payload contentType,
      (NewRequest).formBody refLib [("a b&c", "x=y+z%"), ("k", "caf\xe9")] ⟨[], []⟩
        = (Except.ok (some (Body.text payload), contentType), ⟨[], []⟩)
      ∧ (parseQueryErr payload).2 = none
      ∧ ∀ k, mapGet (parseQueryErr payload).1 k
          = (mapGet [("a b&c", "x=y+z%"), ("k", "caf\xe9")] k).map (fun v => [v]) :=
  form_body_round_trip [("a b&c", "x=y+z%"), ("k", "caf\xe9")] NewRequest ⟨[], []⟩
    (by decide) (by decide)

/-! ### URL resolution and query merge -/

theorem mapGet_valuesSetAll (m : GoMap String String) (k : String) (hwf : MapWF m) :
    ∀ q : Values,
      mapGet (valuesSetAll q m) k
        = match mapGet m k with
          | some v => some [v]
          | none => mapGet q k := by
  induction m with
  | nil => intro q; simp [valuesSetAll, mapGet]
  | cons a t ih =>
    intro q
    obtain ⟨k1, v1⟩ := a
    have hnd : k1 ∉ mapKeys t ∧ MapWF t := by
      simpa [MapWF, mapKeys] using hwf
    have h := ih hnd.2 (valuesSet q k1 v1)
    simp only [valuesSetAll, List.foldl_cons] at h ⊢
    rw [h]
    by_cases hk : k1 = k
    · subst hk
      have : mapGet t k1 = none := (mapGet_eq_none t k1).mpr hnd.1
      simp [mapGet, this, valuesSet, mapGet_mapSet]
    · simp [mapGet, hk, valuesSet, mapGet_mapSet]

theorem buildURL_of_url {μ : Type} (lib : Lib) (c : Client μ) (r : Request) (u : URL)
    (hurl : r.url = some u) (hstr : lib.urlString u ≠ "") (q : Values)
    (hq : q = valuesSetAll (valuesSetAll (lib.parseQuery u.RawQuery) c.Params) r.params) :
    (r.buildURL lib c).1 = Except.ok { u with RawQuery := lib.valuesEncode q } := by
  simp only [Request.buildURL, hurl, hstr, if_false, hq]

/-- C13. When `buildURL` returns a URL, its raw query is `Values.Encode` of the
values in which each key has the request's parameter if the request sets one, else
the client's default if the client sets one, else the values of the key in the own
query of the URL it started from (the request's URL, or the base URL when the
request has none); a key none of the three has is absent. -/
theorem buildURL_query_overlay {μ : Type} (lib : Lib) (c : Client μ) (r : Request)
    (final : URL) (hcw : MapWF c.Params) (hrw : MapWF r.params)
    (hres : (r.buildURL lib c).1 = Except.ok final) :
    ∃ (u : URL) (q : Values),
      (r.url = some u ∨ lib.urlParse c.BaseURL = Except.ok u)
      ∧ final = { u with RawQuery := lib.valuesEncode q }
      ∧ ∀ k, mapGet q k
          = match mapGet r.params k with
            | some v => some [v]
            | none =>
              match mapGet c.Params k with
              | some v => some [v]
              | none => mapGet (lib.parseQuery u.RawQuery) k := by
  have hq : ∀ (u : URL) (k : String),
      mapGet (valuesSetAll (valuesSetAll (lib.parseQuery u.RawQuery) c.Params) r.params) k
        = match mapGet r.params k with
          | some v => some [v]
          | none =>
            match mapGet c.Params k with
            | some v => some [v]
            | none => mapGet (lib.parseQuery u.RawQuery) k := by
    intro u k
    rw [mapGet_valuesSetAll _ k hrw, mapGet_valuesSetAll _ k hcw]
  unfold Request.buildURL at hres
  simp only at hres
  split at hres
  · simp at hres
  · rename_i u hu
    simp only [Except.ok.injEq] at hres
    refine ⟨u, _, ?_, hres.symm, hq u⟩
    cases hurl : r.url with
    | none =>
      simp only [hurl] at hu
      by_cases hb : c.BaseURL = ""
      · simp [hb] at hu
      · simp only [hb, if_false] at hu
        exact Or.inr hu
    | some v =>
      simp only [hurl] at hu
      by_cases hs : lib.urlString v = ""
      · simp only [hs, if_true] at hu
        by_cases hb : c.BaseURL = ""
        · simp [hb] at hu
        · simp only [hb, if_false] at hu
          exact Or.inr hu
      · simp only [hs, if_false, Except.ok.injEq] at hu
        exact Or.inl (by rw [hu])

/-- The example of C13: the URL carries `a=0&c=3`, the client defaults `a=1, b=2`,
the request `b=9`; the final query is `a=1&b=9&c=3`. -/
theorem buildURL_query_overlay_example :
    ((((NewRequest).SetURL refLib "https://h.example.com/p?a=0&c=3").SetParams
        [("b", "9")]).buildURL refLib
        { NewClient Unit "https://api.example.com" with Params := [("a", "1"), ("b", "2")] }).1
      = Except.ok ⟨"https", "", none, "h.example.com", "/p", "", false, false,
          "a=1&b=9&c=3", "", ""⟩
    ∧ ∃ (u : URL) (q : Values),
        ((((NewRequest).SetURL refLib "https://h.example.com/p?a=0&c=3").SetParams
            [("b", "9")]).url = some u
          ∨ refLib.urlParse "https://api.example.com" = Except.ok u)
        ∧ (⟨"https", "", none, "h.example.com", "/p", "", false, false,
            "a=1&b=9&c=3", "", ""⟩ : URL) = { u with RawQuery := refLib.valuesEncode q }
        ∧ ∀ k, mapGet q k
            = match mapGet [("b", "9")] k with
              | some v => some [v]
              | none =>
                match mapGet [("a", "1"), ("b", "2")] k with
                | some v => some [v]
                | none => mapGet (refLib.parseQuery u.RawQuery) k :=
  ⟨rfl,
    buildURL_query_overlay refLib
      { NewClient Unit "https://api.example.com" with Params := [("a", "1"), ("b", "2")] }
      (((NewRequest).SetURL refLib "https://h.example.com/p?a=0&c=3").SetParams [("b", "9")])
      ⟨"https", "", none, "h.example.com", "/p", "", false, false, "a=1&b=9&c=3", "", ""⟩
      (by decide) (by decide) rfl⟩

theorem setURL_of_ok (lib : Lib) (r : Request) (rawURL : String) (u : URL)
    (herr : r.err = none) (hparse : lib.urlParse rawURL = Except.ok u) :
    (r.SetURL lib rawURL).url = some u ∧ (r.SetURL lib rawURL).params = r.params := by
  unfold Request.SetURL
  split
  · rename_i e he
    rw [herr] at he
    exact absurd he (by simp)
  · simp [hparse]

/-- C11 (as amended). For an absolute URL `u` set through `SetURL` or `JoinPath`
on a request without stored error, with no query parameter on the client or the
request, `buildURL` returns `u` with its raw query parsed and re-encoded by
`url.Values`, whatever the client's base URL is; it returns exactly `u` when
that re-encoding leaves the raw query as it is. The fact about the library it
rests on: `URL.String` is empty only for a URL without scheme. -/
theorem absolute_url_ignores_base {μ : Type} (lib : Lib) (c : Client μ) (r : Request)
    (rawURL : String) (u : URL)
    (herr : r.err = none) (hparse : lib.urlParse rawURL = Except.ok u)
    (habs : u.IsAbs = true) (hparams : c.Params = [] ∧ r.params = [])
    (hstring : ∀ v : URL, lib.urlString v = "" → v.Scheme = "") :
    ((r.SetURL lib rawURL).buildURL lib c).1
        = Except.ok { u with RawQuery := lib.valuesEncode (lib.parseQuery u.RawQuery) }
    ∧ ((r.JoinPath lib c rawURL).buildURL lib c).1
        = Except.ok { u with RawQuery := lib.valuesEncode (lib.parseQuery u.RawQuery) }
    ∧ (lib.valuesEncode (lib.parseQuery u.RawQuery) = u.RawQuery →
        ((r.SetURL lib rawURL).buildURL lib c).1 = Except.ok u
        ∧ ((r.JoinPath lib c rawURL).buildURL lib c).1 = Except.ok u) := by
  have hscheme : u.Scheme ≠ "" := by
    simpa [URL.IsAbs] using habs
  have hstr : lib.urlString u ≠ "" := fun h => hscheme (hstring u h)
  have hset := setURL_of_ok lib r rawURL u herr hparse
  have hjoin : r.JoinPath lib c rawURL = { r with url := some u } := by
    unfold Request.JoinPath
    split
    · rename_i e he
      rw [herr] at he
      exact absurd he (by simp)
    · simp only [hparse, habs, if_true]
  have h1 : ((r.SetURL lib rawURL).buildURL lib c).1
      = Except.ok { u with RawQuery := lib.valuesEncode (lib.parseQuery u.RawQuery) } :=
    buildURL_of_url lib c _ u hset.1 hstr _ (by rw [hset.2, hparams.1, hparams.2]; rfl)
  have h2 : ((r.JoinPath lib c rawURL).buildURL lib c).1
      = Except.ok { u with RawQuery := lib.valuesEncode (lib.parseQuery u.RawQuery) } := by
    rw [hjoin]
    exact buildURL_of_url lib c _ u rfl hstr _ (by simp only [hparams.1, hparams.2]; rfl)
  refine ⟨h1, h2, ?_⟩
  intro henc
  rw [h1, h2, henc]
  exact ⟨rfl, rfl⟩

theorem urlString_scheme_of_empty (v : URL) (h : urlString v = "") : v.Scheme = "" := by
  unfold urlString at h
  have h2 := congrArg String.toList h
  simp only [String.toList] at h2
  simp only [List.append_eq_nil] at h2
  obtain ⟨⟨hbody, _⟩, _⟩ := h2
  apply string_eq_empty_of_toList
  by_contra hne
  split at hbody
  · simp only [List.append_eq_nil] at hbody
    have h3 := hbody.1
    by_cases hs : v.Scheme.data = []
    · exact hne hs
    · simp [hs] at h3
  · simp only [List.append_eq_nil] at hbody
    have h3 := hbody.1.1.1
    by_cases hs : v.Scheme.data = []
    · exact hne hs
    · simp [hs] at h3

/-- The scenario of C11: `https://other.example.com/x` set with `SetURL` on a
client whose base URL is `https://api.example.com`. -/
theorem absolute_url_example :
    (((NewRequest).SetURL refLib "https://other.example.com/x").buildURL refLib
        (NewClient Unit "https://api.example.com")).1.map urlString
      = Except.ok "https://other.example.com/x"
    ∧ (((NewRequest).JoinPath refLib (NewClient Unit "https://api.example.com")
          "https://other.example.com/x").buildURL refLib
        (NewClient Unit "https://api.example.com")).1
      = Except.ok ⟨"https", "", none, "other.example.com", "/x", "", false, false, "", "", ""⟩ :=
  ⟨rfl,
    ((absolute_url_ignores_base refLib (NewClient Unit "https://api.example.com") NewRequest
      "https://other.example.com/x"
      ⟨"https", "", none, "other.example.com", "/x", "", false, false, "", "", ""⟩
      rfl rfl rfl ⟨rfl, rfl⟩ urlString_scheme_of_empty).2.2 rfl).2⟩

/-- C11, the claim as stated fails: the absolute URL
`https://other.example.com/x?b=2&a=1` comes out of `buildURL` as
`https://other.example.com/x?a=1&b=2`, its query re-encoded with sorted keys. -/
theorem absolute_url_query_reencoded :
    (urlParse "https://other.example.com/x?b=2&a=1").map urlString
      = Except.ok "https://other.example.com/x?b=2&a=1"
    ∧ (((NewRequest).SetURL refLib "https://other.example.com/x?b=2&a=1").buildURL refLib
        (NewClient Unit "https://api.example.com")).1.map urlString
      = Except.ok "https://other.example.com/x?a=1&b=2"
    ∧ "https://other.example.com/x?a=1&b=2" ≠ "https://other.example.com/x?b=2&a=1" :=
  ⟨rfl, rfl, by decide⟩

/-- C12 (as amended). `SetURL` does not resolve a relative URL against the base
URL: for every client, whatever its base URL and its query parameters, and a
relative URL `p` (parsed as `v`, with a non-empty string form) set on a request
without stored error, `buildURL` returns a URL with no scheme and with the host
and the path of `p` itself; its raw query is the query of `p` overlaid with the
client's and then the request's parameters, encoded by `url.Values`, and every
other field is that of `v`. -/
theorem setURL_relative_not_resolved {μ : Type} (lib : Lib) (c : Client μ) (r : Request)
    (p : String) (v : URL)
    (herr : r.err = none) (hparse : lib.urlParse p = Except.ok v)
    (hrel : v.IsAbs = false) (hstr : lib.urlString v ≠ "") :
    ∃ final : URL,
      ((r.SetURL lib p).buildURL lib c).1 = Except.ok final
      ∧ final.Scheme = "" ∧ final.Host = v.Host ∧ final.Path = v.Path
      ∧ final.RawQuery
          = lib.valuesEncode
              (valuesSetAll (valuesSetAll (lib.parseQuery v.RawQuery) c.Params) r.params)
      ∧ final = { v with RawQuery := final.RawQuery } := by
  have hset := setURL_of_ok lib r p v herr hparse
  have hscheme : v.Scheme = "" := by
    simpa [URL.IsAbs] using hrel
  have hb := buildURL_of_url lib c _ v hset.1 hstr
    (valuesSetAll (valuesSetAll (lib.parseQuery v.RawQuery) c.Params) r.params)
    (by rw [hset.2])
  exact ⟨_, hb, hscheme, rfl, rfl, rfl, rfl⟩

/-- The example of C12 as amended: `/v1/users` set with `SetURL` on a client with
base URL `https://api.example.com` and the default query parameter `a=1`; the
final URL is `/v1/users?a=1`, without scheme and host. -/
theorem setURL_relative_example :
    ∃ final : URL,
      (((NewRequest).SetURL refLib "/v1/users").buildURL refLib
          { NewClient Unit "https://api.example.com" with Params := [("a", "1")] }).1
        = Except.ok final
      ∧ final.Scheme = "" ∧ final.Host = "" ∧ final.Path = "/v1/users"
      ∧ final.RawQuery = "a=1"
      ∧ final = { (⟨"", "", none, "", "/v1/users", "", false, false, "", "", ""⟩ : URL)
          with RawQuery := final.RawQuery } :=
  setURL_relative_not_resolved refLib
    { NewClient Unit "https://api.example.com" with Params := [("a", "1")] } NewRequest
    "/v1/users" ⟨"", "", none, "", "/v1/users", "", false, false, "", "", ""⟩
    rfl rfl rfl (by decide)

/-- C12, the claim as stated fails: with base URL `https://api.example.com`
(scheme `https`, host `api.example.com`), `SetURL "/v1/users"` leads to the final
URL `/v1/users`, without scheme and host. -/
theorem setURL_relative_keeps_no_scheme :
    (urlParse "https://api.example.com").map (fun u => (u.Scheme, u.Host))
      = Except.ok ("https", "api.example.com")
    ∧ (((NewRequest).SetURL refLib "/v1/users").buildURL refLib
          (NewClient Unit "https://api.example.com")).1.map
        (fun u => (u.Scheme, u.Host, urlString u))
      = Except.ok ("", "", "/v1/users") :=
  ⟨rfl, rfl⟩

/-! ### Response accessors -/

/-- C15. For a response whose body read failed with error `e`: `StatusCode` is
`-1`, `Header` is nil, `Cookies` is empty, and `Text`, `Bytes`, `Json`, `Unmarshal`
and `ToStruct` return `e` with the empty string, the nil slice, the nil map, the
untouched target and the zero value. For a response whose body was read:
`StatusCode` and `Header` are those of the underlying response, `Text` and `Bytes`
return the buffered body. `newResponse` stores the error of the read, the bytes
read and the underlying response. The accessors are functions of the response
alone, so every call returns the same. -/
theorem failed_read_reported_by_every_accessor {τ : Type} (r : Response) :
    (∀ e, r.err = some e →
        r.StatusCode = -1
        ∧ r.Header = none
        ∧ (∀ readSetCookies, r.Cookies readSetCookies = [])
        ∧ r.Text = ("", some e)
        ∧ r.Bytes = (none, some e)
        ∧ (∀ unmarshal, r.Json unmarshal = (none, some e))
        ∧ (∀ (unmarshal : Bytes → τ → τ × Option GoError) (v : τ),
            r.Unmarshal unmarshal v = (v, some e))
        ∧ (∀ (zero : τ) (unmarshal : Bytes → τ → τ × Option GoError),
            ToStruct zero unmarshal r = (zero, some e)))
    ∧ (r.err = none →
        r.StatusCode = r.Resp.StatusCode
        ∧ r.Header = some r.Resp.Header
        ∧ r.Text = (bytesToString r.bodyBytes, none)
        ∧ r.Bytes = (some r.bodyBytes, none))
    ∧ (∀ (resp : HttpResponse) (w : World),
        (newResponse resp w).1.err = resp.Body.readErr
        ∧ (newResponse resp w).1.bodyBytes = resp.Body.data
        ∧ (newResponse resp w).1.Resp = resp) := by
  refine ⟨?_, ?_, ?_⟩
  · intro e he
    refine ⟨?_, ?_, ?_, ?_, ?_, ?_, ?_, ?_⟩
    · simp only [Response.StatusCode, he]
    · simp only [Response.Header, he]
    · intro rc; simp only [Response.Cookies, he]
    · simp only [Response.Text, he]
    · simp only [Response.Bytes, he]
    · intro um; simp only [Response.Json, he]
    · intro um v; simp only [Response.Unmarshal, he]
    · intro zero um; simp only [ToStruct, he]
  · intro he
    refine ⟨?_, ?_, ?_, ?_⟩
    · simp only [Response.StatusCode, he]
    · simp only [Response.Header, he]
    · simp only [Response.Text, he]
    · simp only [Response.Bytes, he]
  · intro resp w
    exact ⟨rfl, rfl, rfl⟩

/-! ### Closing of uploaded streams -/

theorem writeFilesLoop_ok (lib : Lib) (files : List (String × File)) :
    ∀ (parts0 : List (String × String × Bytes)) (deferred0 : List Nat)
      (parts : List (String × String × Bytes)) (deferred : List Nat),
      writeFilesLoop lib files parts0 deferred0 = (Except.ok parts, deferred) →
      deferred = deferred0 ++ files.filterMap (fun f => f.2.Content.closer) := by
  induction files with
  | nil =>
    intro parts0 deferred0 parts deferred h
    simp only [writeFilesLoop, Prod.mk.injEq] at h
    simp [h.2]
  | cons f t ih =>
    intro parts0 deferred0 parts deferred h
    obtain ⟨fieldName, file⟩ := f
    unfold writeFilesLoop at h
    simp only at h
    split at h
    · simp at h
    · split at h
      · simp at h
      · have := ih _ _ _ _ h
        rw [this]
        cases hc : file.Content.closer <;> simp [hc]

/-- On success `buildMultipartBody` has called `Close` once for each file whose
content is an `io.Closer`, in reverse order of the range over the files. -/
theorem buildMultipartBody_ok_closes_all (lib : Lib) (files : GoMap String File)
    (formData : GoMap String String) (w w1 : World) (res : Option Body × String)
    (h : buildMultipartBody lib files formData w = (Except.ok res, w1)) :
    w1.closed = w.closed ++ (files.filterMap (fun f => f.2.Content.closer)).reverse := by
  unfold buildMultipartBody at h
  split at h
  · simp at h
  · split at h
    rename_i r deferred hloop
    cases r with
    | error e => simp at h
    | ok parts =>
      have hd := writeFilesLoop_ok lib files [] [] parts deferred hloop
      simp only at h
      split at h
      · simp at h
      · simp only [Prod.mk.injEq] at h
        rw [← h.2, hd]
        simp

/-- C16, a failing run. Two files whose contents are closers, with handles 1 and
2; reading the first one fails. `buildMultipartBody` returns the read error having
closed handle 1 only: handle 2 is never closed. And when writing a form field
fails, it returns before any `Close` is deferred: no handle is closed. -/
theorem buildMultipartBody_error_leaves_streams_open :
    buildMultipartBody refLib
        [("a", ⟨"a.txt", ⟨[1], some "read a.txt: is a directory", some 1⟩⟩),
          ("b", ⟨"b.txt", ⟨[2], none, some 2⟩⟩)]
        [] ⟨[], []⟩
      = (Except.error "read a.txt: is a directory", ⟨[1], []⟩)
    ∧ buildMultipartBody { refLib with writeFieldErr := fun _ _ => some "write failed" }
        [("b", ⟨"b.txt", ⟨[2], none, some 2⟩⟩)] [("k", "v")] ⟨[], []⟩
      = (Except.error "write failed", ⟨[], []⟩) :=
  ⟨rfl, rfl⟩

/-! ### Arguments of the top-level `Get` -/

theorem getArg_ne_error {μ : Type} (lib : Lib) (st : GetState μ) (arg : Arg)
    (e : GoError) : getArg lib st arg ≠ ArgsOutcome.error e := by
  cases arg <;> simp [getArg, Arg.isBodyCase, Arg.implementsJsonData]
  split <;> simp

theorem getArgs_ne_error {μ : Type} (lib : Lib) (args : List Arg) :
    ∀ (st : GetState μ) (e : GoError), getArgs lib st args ≠ ArgsOutcome.error e := by
  induction args with
  | nil => intro st e h; cases h
  | cons a t ih =>
    intro st e h
    cases h1 : getArg lib st a with
    | error e1 => exact getArg_ne_error lib st a e1 h1
    | panic msg => simp [getArgs, h1] at h
    | ok st1 =>
      simp only [getArgs, h1] at h
      exact ih st1 e h

theorem getArg_ok_of_params {μ : Type} (lib : Lib) (st : GetState μ) (arg : Arg)
    (hst : st.paramsNil = false) (harg : arg ≠ Arg.queryParams none) :
    ∃ st1, getArg lib st arg = ArgsOutcome.ok st1 ∧ st1.paramsNil = false := by
  cases arg with
  | queryParams data =>
    cases data with
    | none => exact absurd rfl harg
    | some m => exact ⟨_, rfl, rfl⟩
  | Params v =>
    exact ⟨{ st with client := { st.client with Params := mapsCopy st.client.Params v } },
      by simp [getArg, hst], hst⟩
  | Headers v =>
    exact ⟨{ st with client := { st.client with
        Headers := v.foldl (fun h kv => headerSet lib.canon h kv.1 kv.2) st.client.Headers } },
      rfl, hst⟩
  | requestHeaders data =>
    exact ⟨{ st with client := { st.client with Headers := data } }, rfl, hst⟩
  | nil => exact ⟨st, by simp [getArg, Arg.isBodyCase, Arg.implementsJsonData], hst⟩
  | FormData v => exact ⟨st, by simp [getArg, Arg.isBodyCase, Arg.implementsJsonData], hst⟩
  | Files v => exact ⟨st, by simp [getArg, Arg.isBodyCase, Arg.implementsJsonData], hst⟩
  | jsonBody v => exact ⟨st, by simp [getArg, Arg.isBodyCase, Arg.implementsJsonData], hst⟩
  | formBody v => exact ⟨st, by simp [getArg, Arg.isBodyCase, Arg.implementsJsonData], hst⟩
  | filesBody v => exact ⟨st, by simp [getArg, Arg.isBodyCase, Arg.implementsJsonData], hst⟩
  | other t => exact ⟨st, by simp [getArg, Arg.isBodyCase, Arg.implementsJsonData], hst⟩

theorem getArgs_ok_of_params {μ : Type} (lib : Lib) (args : List Arg) :
    ∀ st : GetState μ, st.paramsNil = false → (∀ a ∈ args, a ≠ Arg.queryParams none) →
      ∃ st1, getArgs lib st args = ArgsOutcome.ok st1 := by
  induction args with
  | nil => intro st _ _; exact ⟨st, rfl⟩
  | cons a t ih =>
    intro st hst hargs
    obtain ⟨st1, h1, hnil⟩ :=
      getArg_ok_of_params lib st a hst (hargs a (List.mem_cons_self a t))
    obtain ⟨st2, h2⟩ := ih st1 hnil (fun b hb => hargs b (List.mem_cons_of_mem a hb))
    exact ⟨st2, by simp only [getArgs, h1, h2]⟩

/-- C17, on the code. The `default` case of the type switch of `Get` is never
reached: whatever the arguments, the loop never ends with the `unsupported
argument type` error. When no argument is `AsParams(nil)`, the loop ends with a
configured client and `Get` sends the request with it. An `int` argument matches
the case that lists `JsonData`, is skipped like a body argument, and `Get` sends
the request and returns the response. The only other way the loop ends is the
panic of `maps.Copy` into the nil map that `AsParams(nil)` leaves, as when
`AsParams(nil)` is followed by a `Params` with one entry. -/
theorem get_accepts_every_argument (lib : Lib) (url : String) (args : List Arg)
    (w : World) :
    (∀ e, getArgs lib { client := NewClient ClientMiddleware url, paramsNil := false } args
        ≠ ArgsOutcome.error e)
    ∧ ((∀ a ∈ args, a ≠ Arg.queryParams none) →
        ∃ st, getArgs lib { client := NewClient ClientMiddleware url, paramsNil := false } args
            = ArgsOutcome.ok st
          ∧ Get lib url args w = some (st.client.Get lib w))
    ∧ Get refLib "https://example.com" [Arg.other "int"] ⟨[], []⟩
        = some (Except.ok ⟨⟨200, [], ⟨[], none, none⟩⟩, [], none⟩,
            ⟨[], [⟨⟨none⟩, "GET", "https://example.com", none, []⟩]⟩)
    ∧ Get refLib "https://example.com" [AsParams none, Arg.Params [("a", "1")]] ⟨[], []⟩
        = none := by
  refine ⟨fun e => getArgs_ne_error lib args _ e, ?_, rfl, rfl⟩
  intro hargs
  obtain ⟨st, h⟩ := getArgs_ok_of_params lib args
    { client := NewClient ClientMiddleware url, paramsNil := false } rfl hargs
  exact ⟨st, h, by simp only [Get, h]⟩

/-! ### Retry count and stopping attempt -/

theorem retryLoop_until {ρ σ R : Type} (env : RetryEnv σ)
    (retryIf : Option R → Option GoError → Bool) (n : Nat) (retryBackoff : Int)
    (req : ρ) (next : Next ρ σ (Option R × Option GoError))
    (hfit : (n : Int) + 1 < 9223372036854775808) :
    ∀ (d j fuel : Nat) (last : Option R × Option GoError) (s : σ),
      j + d ≤ n → d + 1 ≤ fuel →
      (∀ i < d, retryIf (next req ((retryRound env retryBackoff req next)^[i] s)).1.1
          (next req ((retryRound env retryBackoff req next)^[i] s)).1.2 = true) →
      (j + d = n ∨ retryIf (next req ((retryRound env retryBackoff req next)^[d] s)).1.1
          (next req ((retryRound env retryBackoff req next)^[d] s)).1.2 = false) →
      retryLoop env retryIf n retryBackoff ((n : Int) + 1) req next fuel (j : Int) last s
        = next req ((retryRound env retryBackoff req next)^[d] s) := by
  intro d
  induction d with
  | zero =>
    intro j fuel last s hj hfuel _ hstop
    obtain ⟨f, rfl⟩ : ∃ f, fuel = f + 1 := ⟨fuel - 1, by omega⟩
    have h1 : (j : Int) < (n : Int) + 1 := by omega
    simp only [Function.iterate_zero, id_eq] at hstop ⊢
    rw [retryLoop]
    simp only [h1, if_true]
    cases hc : retryIf (next req s).1.1 (next req s).1.2 with
    | false => simp
    | true =>
      have hjn : j = n := by
        rcases hstop with h | h
        · omega
        · rw [hc] at h; cases h
      subst hjn
      simp
  | succ d ih =>
    intro j fuel last s hj hfuel hretry hstop
    obtain ⟨f, rfl⟩ : ∃ f, fuel = f + 1 := ⟨fuel - 1, by omega⟩
    have h1 : (j : Int) < (n : Int) + 1 := by omega
    have h2 : ¬ ((j : Int) = (n : Int)) := by omega
    have h3 : wrapInt ((j : Int) + 1) = ((j + 1 : Nat) : Int) := by
      rw [wrapInt_of_small _ (by omega) (by omega)]
      push_cast
      rfl
    have h0 := hretry 0 (by omega)
    simp only [Function.iterate_zero, id_eq] at h0
    rw [retryLoop]
    simp only [h1, if_true, h0, Bool.not_true, Bool.false_eq_true, if_false, h2, h3]
    rw [ih (j + 1) f _ _ (by omega) (by omega)]
    · rw [Function.iterate_succ_apply]
      rfl
    · intro i hi
      have := hretry (i + 1) (by omega)
      rw [Function.iterate_succ_apply] at this
      exact this
    · rcases hstop with h | h
      · exact Or.inl (by omega)
      · rw [Function.iterate_succ_apply] at h
        exact Or.inr h

/-- The retry loop within the range of `int`, for any retry condition: with
effective count `n` (`RetryCount`, or 3 when `RetryCount <= 0`) and `n + 1`
representable, if the retry condition holds on the first `d <= n` attempts and
either `d = n` or it fails on the next one, `next` is invoked exactly `d + 1`
times, that is `min (k, n + 1)` for the first failing attempt `k = d + 1`, and the
result is that of the last invocation. -/
theorem retrier_invocations {ρ σ R : Type} (env : RetryEnv σ) (policy : RetryPolicy R)
    (retryIf : Option R → Option GoError → Bool) (n d : Nat) (req : ρ)
    (next : Next ρ σ (Option R × Option GoError)) (s : σ)
    (hcount : (if policy.RetryCount ≤ 0 then 3 else policy.RetryCount) = (n : Int))
    (hfit : (n : Int) + 1 < 9223372036854775808)
    (hif : (match policy.RetryIf with
        | none => fun _ err => err.isSome
        | some f => f) = retryIf)
    (hd : d ≤ n)
    (hretry : ∀ i < d, ∀ t : σ × Nat,
      t = (retryRound (countingEnv env)
        (if policy.RetryBackoff ≤ 0 then 1000000000 else policy.RetryBackoff) req
        (countingNext next))^[i] (s, 0) →
      retryIf (countingNext next req t).1.1 (countingNext next req t).1.2 = true)
    (hstop : d = n ∨ ∀ t : σ × Nat,
      t = (retryRound (countingEnv env)
        (if policy.RetryBackoff ≤ 0 then 1000000000 else policy.RetryBackoff) req
        (countingNext next))^[d] (s, 0) →
      retryIf (countingNext next req t).1.1 (countingNext next req t).1.2 = false) :
    (NewRetrier (countingEnv env) policy req (countingNext next) (s, 0)).2.2 = d + 1
    ∧ ∃ sLast : σ × Nat, sLast.2 = d
        ∧ NewRetrier (countingEnv env) policy req (countingNext next) (s, 0)
            = countingNext next req sLast := by
  have hw : wrapInt ((n : Int) + 1) = (n : Int) + 1 :=
    wrapInt_of_small _ (by omega) hfit
  have hnat : ((n : Int) + 1).toNat = n + 1 := by omega
  have hrun : NewRetrier (countingEnv env) policy req (countingNext next) (s, 0)
      = countingNext next req
          ((retryRound (countingEnv env)
              (if policy.RetryBackoff ≤ 0 then 1000000000 else policy.RetryBackoff)
              req (countingNext next))^[d] (s, 0)) := by
    simp only [NewRetrier, hcount, hif, hw, hnat]
    have h := retryLoop_until (countingEnv env) retryIf n
      (if policy.RetryBackoff ≤ 0 then 1000000000 else policy.RetryBackoff)
      req (countingNext next) hfit d 0 (n + 1) (none, none) (s, 0) (by omega) (by omega)
      (fun i hi => hretry i hi _ rfl)
      (by
        rcases hstop with h | h
        · exact Or.inl (by omega)
        · exact Or.inr (h _ rfl))
    simpa using h
  have hcnt := retryRound_counting env
    (if policy.RetryBackoff ≤ 0 then 1000000000 else policy.RetryBackoff) req next d (s, 0)
  refine ⟨?_, _, ?_, hrun⟩
  · rw [hrun]
    simp only [countingNext, hcnt]
    omega
  · rw [hcnt]; omega

/-- With `RetryCount <= 0` the effective count is 3: when the retry condition holds
on every result of `next`, `next` is invoked exactly 4 times. -/
theorem retrier_nonpositive_count_invokes_four {ρ σ R : Type} (env : RetryEnv σ)
    (policy : RetryPolicy R) (retryIf : Option R → Option GoError → Bool) (req : ρ)
    (next : Next ρ σ (Option R × Option GoError)) (s : σ)
    (hcount : policy.RetryCount ≤ 0)
    (hif : (match policy.RetryIf with
        | none => fun _ err => err.isSome
        | some f => f) = retryIf)
    (hretry : ∀ t, retryIf (next req t).1.1 (next req t).1.2 = true) :
    (NewRetrier (countingEnv env) policy req (countingNext next) (s, 0)).2.2 = 4 :=
  (retrier_invocations env policy retryIf 3 3 req next s (by simp [hcount]) (by decide)
    hif (le_refl 3) (fun _ _ t _ => by simpa [countingNext] using hretry t.1)
    (Or.inl rfl)).1

/-- C18, at the largest `int`. With `RetryCount = math.MaxInt` the effective
count is `n = math.MaxInt`, the bound `n + 1` of the loop wraps around, and for
every retry condition `next` is invoked 0 times, which is `min (k, n + 1)` for no
attempt index `k >= 1`; the middleware returns `(nil, nil)`. -/
theorem retrier_maxInt_breaks_min_formula {ρ σ R : Type} (env : RetryEnv σ)
    (backoff : Int) (retryIf : Option R → Option GoError → Bool) (req : ρ)
    (next : Next ρ σ (Option R × Option GoError)) (s : σ) :
    (NewRetrier (countingEnv env)
        { RetryCount := maxInt, RetryBackoff := backoff, RetryIf := some retryIf } req
        (countingNext next) (s, 0)).2.2 = 0
    ∧ (∀ k : Nat, 1 ≤ k →
        (NewRetrier (countingEnv env)
          { RetryCount := maxInt, RetryBackoff := backoff, RetryIf := some retryIf } req
          (countingNext next) (s, 0)).2.2 ≠ min k (maxInt.toNat + 1))
    ∧ (NewRetrier (countingEnv env)
        { RetryCount := maxInt, RetryBackoff := backoff, RetryIf := some retryIf } req
        (countingNext next) (s, 0)).1 = (none, none) := by
  have h : (wrapInt (maxInt + 1)).toNat = 0 := by decide
  have hrun : NewRetrier (countingEnv env)
      { RetryCount := maxInt, RetryBackoff := backoff, RetryIf := some retryIf } req
      (countingNext next) (s, 0) = ((none, none), (s, 0)) := by
    simp only [NewRetrier, h, retryLoop]
  rw [hrun]
  refine ⟨rfl, ?_, rfl⟩
  intro k hk
  have : (maxInt.toNat + 1) ≥ 1 := by omega
  simp only [ne_eq]
  omega

/-- The first sentence of C18 on an example: `RetryCount = 0`, a terminal call
that always fails: four invocations. -/
theorem retrier_zero_count_example :
    (NewRetrier (ρ := Unit) (R := Unit)
        (countingEnv { logPrintf := fun _ _ (s : Unit) => s, sleep := fun _ s => s })
        { RetryCount := 0, RetryBackoff := 0, RetryIf := none } ()
        (countingNext (fun _ s => ((none, some "boom"), s))) ((), 0)).2.2 = 4 :=
  retrier_nonpositive_count_invokes_four
    { logPrintf := fun _ _ (s : Unit) => s, sleep := fun _ s => s }
    { RetryCount := 0, RetryBackoff := 0, RetryIf := none } (fun _ err => err.isSome) ()
    (fun _ s => ((none, some "boom"), s)) () (by decide) rfl (fun _ => rfl)

end Requesto
